import Mathlib

/-!
# Verification of the `avl` AVL-tree library

Shallow embedding of the TypeScript sources (`src/index.ts`, `src/utils.ts`,
`src/types.ts`) of the `avl` package: an in-memory ordered key/value container
backed by an AVL tree with parent pointers and incrementally maintained
balance factors.

Modelling conventions:
* A `Node<K, V>` graph rooted at `_root` is represented by the inductive
  `Avl.Tree K V`; parent pointers are implicit (they are recovered by the
  recursion structure: the imperative walks from a node up to the root via
  `parent` links become the unwinding of recursive calls along the access
  path, which visits exactly the same nodes in the same order).
* JS numbers used as balance factors are modelled by `Int`; the node count
  `_size` by `Nat`.
* The caller-supplied comparator defaults to `DEFAULT_COMPARE`, which is the
  generic `a > b ? 1 : a < b ? -1 : 0`; we model keys as an arbitrary
  linearly ordered type `K` and the comparator as that default, exactly as
  in `utils.ts`.
* JS truthiness of a key value (the `!key` guard in `delete`) is modelled by
  an explicit predicate `falsy : K → Bool`; for `K = Int` (JS numbers) the
  falsy keys are exactly `0` (`NaN` does not exist in `Int`).
* Methods that mutate the tree become functions returning the new tree;
  read-only methods additionally get an explicit state-passing form (state
  threaded through, never written) used to state frame properties.
-/

namespace Avl

/-- The node model of `types.ts`: key, optional value payload, left/right
children and a signed balance factor.  The `parent` back-reference of the
source is not stored: it is the (uniquely determined) position of the node
in the tree, and the upward walks of the source are modelled by structural
recursion along the access path. -/
inductive Tree (K V : Type) where
  | nil : Tree K V
  | node (left : Tree K V) (key : K) (value : V) (balanceFactor : Int)
      (right : Tree K V) : Tree K V
deriving Repr, DecidableEq

namespace Tree

variable {K V : Type}

/-- Number of nodes reachable from the root. -/
def count : Tree K V → Nat
  | nil => 0
  | node l _ _ _ r => count l + count r + 1

/-- `height` from `utils.ts`: number of nodes along the longest root-to-leaf
path (`node ? 1 + Math.max(height(node.left), height(node.right)) : 0`). -/
def height : Tree K V → Nat
  | nil => 0
  | node l _ _ _ r => 1 + max (height l) (height r)

/-- In-order list of key/value pairs of the tree (left, node, right). -/
def inorder : Tree K V → List (K × V)
  | nil => []
  | node l k v _ r => inorder l ++ (k, v) :: inorder r

/-- In-order list of keys. -/
def keysOf (t : Tree K V) : List K := (inorder t).map Prod.fst

/-- JS truthiness of the `_root` reference: `!this._root`. -/
def isNil : Tree K V → Bool
  | nil => true
  | node _ _ _ _ _ => false

end Tree

/-- `DEFAULT_COMPARE` from `utils.ts`: `a > b ? 1 : a < b ? -1 : 0`. -/
def DEFAULT_COMPARE {K : Type} [LinearOrder K] (a b : K) : Int :=
  if a > b then 1 else if a < b then -1 else 0

section Ops

variable {K V : Type} [LinearOrder K]

/-- `AVLTree.has` (`index.ts`): iterative descent comparing the target key,
returning `true` on an exact comparator match. -/
def has (key : K) : Tree K V → Bool
  | .nil => false
  | .node l k _ _ r =>
    let cmp := DEFAULT_COMPARE key k
    if cmp = 0 then true
    else if cmp < 0 then has key l
    else has key r

/-- `AVLTree.get` (`index.ts`): same descent as `has`, returning the value of
the first node with an exact comparator match. -/
def get (key : K) : Tree K V → Option V
  | .nil => none
  | .node l k v _ r =>
    let cmp := DEFAULT_COMPARE key k
    if cmp = 0 then some v
    else if cmp < 0 then get key l
    else get key r

/-- `minNode` (`index.ts`): descend all-left from the root. -/
def minNode : Tree K V → Option (K × V)
  | .nil => none
  | .node .nil k v _ _ => some (k, v)
  | .node (.node ll lk lv lb lr) _ _ _ _ => minNode (.node ll lk lv lb lr)

/-- `maxNode` (`index.ts`): descend all-right from the root. -/
def maxNode : Tree K V → Option (K × V)
  | .nil => none
  | .node _ k v _ .nil => some (k, v)
  | .node _ _ _ _ (.node rl rk rv rb rr) => maxNode (.node rl rk rv rb rr)

/-- `rotateLeft` from `utils.ts`.  Requires `node.right`; promotes it,
reattaches its former left subtree as `node`'s new right subtree and updates
the two balance factors algebraically:
`node.bf += 1; if (right.bf < 0) node.bf -= right.bf;
 right.bf += 1; if (node.bf > 0) right.bf += node.bf`.
Returns `none` when `node.right` is absent (the source returns `undefined`
and mutates nothing).  The parent-link rewiring of the source is implicit:
callers substitute the returned subtree at the old position. -/
def rotateLeft : Tree K V → Option (Tree K V)
  | .nil => none
  | .node _ _ _ _ .nil => none
  | .node l k v bf (.node rl rk rv rbf rr) =>
    let nbf := bf + 1
    let nbf := if rbf < 0 then nbf - rbf else nbf
    let nrbf := rbf + 1
    let nrbf := if nbf > 0 then nrbf + nbf else nrbf
    some (.node (.node l k v nbf rl) rk rv nrbf rr)

/-- `rotateRight` from `utils.ts`: mirror image of `rotateLeft`. -/
def rotateRight : Tree K V → Option (Tree K V)
  | .nil => none
  | .node .nil _ _ _ _ => none
  | .node (.node ll lk lv lbf lr) k v bf r =>
    let nbf := bf - 1
    let nbf := if lbf > 0 then nbf - lbf else nbf
    let nlbf := lbf - 1
    let nlbf := if nbf < 0 then nlbf + nbf else nlbf
    some (.node ll lk lv nlbf (.node lr k v nbf r))

/-- Balance factor at the root of a nonempty tree (0 for `nil`; only used on
nonempty trees). -/
def rootBF : Tree K V → Int
  | .nil => 0
  | .node _ _ _ bf _ => bf

/-- One step of `set`'s upward rebalancing walk at a node whose relevant
child just grew, given the adjusted tree `t` (balance factor already
updated).  Mirrors the body of the `while (parent)` loop of `set`
(`index.ts`): on `bf < -1` first `rotateRight(parent.right)` when that
child's balance factor is exactly `1`, then `rotateLeft(parent)`; on
`bf > 1` the mirror image.  Returns the new subtree root.  When the rotation
is inapplicable (required child absent — unreachable when the balance
invariants hold) the adjusted tree is kept. -/
def insRotate (t : Tree K V) : Tree K V :=
  match t with
  | .nil => t
  | .node l k v bf r =>
    if bf < -1 then
      let r' := if rootBF r = 1 then (rotateRight r).getD r else r
      (rotateLeft (.node l k v bf r')).getD (.node l k v bf r')
    else if bf > 1 then
      let l' := if rootBF l = -1 then (rotateLeft l).getD l else l
      (rotateRight (.node l' k v bf r)).getD (.node l' k v bf r)
    else t

/-- Recursive core of `AVLTree.set` (`index.ts`).  Returns
`(t', grew, inserted)`: the new subtree, whether its height grew (the
upward walk of the source continues exactly while this flag is true; the
`break`s of the loop make it false), and whether a node was actually
inserted (`false` for the in-place value update of reject-duplicates mode,
which returns early without touching `_size`).

The walk's balance-factor adjustment in the source is
`cmp = compare(parent.key, key); if (cmp < 0) parent.bf -= 1 else parent.bf += 1`,
re-deriving the descent direction from the comparator; here the recursion
returns from exactly that child, and the same conditional is used. -/
def insRec (noDup : Bool) (key : K) (value : V) :
    Tree K V → Tree K V × Bool × Bool
  | .nil =>
    -- attach a new leaf with balanceFactor 0
    (.node .nil key value 0 .nil, true, true)
  | .node l k v bf r =>
    let cmp := DEFAULT_COMPARE key k
    if noDup ∧ cmp = 0 then
      -- `node.value = value; return this` — no size change, no rebalance
      (.node l k value bf r, false, false)
    else if (if noDup then cmp < 0 else cmp ≤ 0) then
      match insRec noDup key value l with
      | (l', false, ins) => (.node l' k v bf r, false, ins)
      | (l', true, ins) =>
        -- `compare(parent.key, key) < 0 ? bf -= 1 : bf += 1`
        let bf' := if DEFAULT_COMPARE k key < 0 then bf - 1 else bf + 1
        if bf' = 0 then (.node l' k v bf' r, false, ins)
        else if bf' < -1 ∨ bf' > 1 then
          (insRotate (.node l' k v bf' r), false, ins)
        else (.node l' k v bf' r, true, ins)
    else
      match insRec noDup key value r with
      | (r', false, ins) => (.node l k v bf r', false, ins)
      | (r', true, ins) =>
        let bf' := if DEFAULT_COMPARE k key < 0 then bf - 1 else bf + 1
        if bf' = 0 then (.node l k v bf' r', false, ins)
        else if bf' < -1 ∨ bf' > 1 then
          (insRotate (.node l k v bf' r'), false, ins)
        else (.node l k v bf' r', true, ins)

/-- One step of `delete`'s upward rebalancing walk (`index.ts`): the child
on side `fromLeft` of the given node just shrank
(`parent.left === pp ? bf -= 1 : bf += 1`), then the same rotation block as
in `set` runs, and the walk `break`s exactly when the resulting subtree
root's balance factor is `±1` (second component `false`); it continues
upward otherwise. -/
def delRebalance : Tree K V → Bool → Tree K V × Bool
  | .nil, _ => (.nil, false)
  | .node l k v bf r, fromLeft =>
    let bf' := if fromLeft then bf - 1 else bf + 1
    let t' := insRotate (.node l k v bf' r)
    (t', ¬(rootBF t' = -1 ∨ rootBF t' = 1))

/-- The left-subtree copy-down cascade of `delete` (`index.ts`), acting on a
nonempty subtree given by its fields.  The source repeatedly copies the
key/value of the rightmost node into the current hole, steps into that
node's left subtree when it has one, and finally unlinks a leaf; the
rebalancing walk then runs from that leaf's parent upward through this very
subtree.  Returns the key/value exported into the hole above, the new
subtree, and whether the walk is still propagating a height decrease. -/
def cascadeMax : Tree K V → Option ((K × V) × Tree K V × Bool)
  | .nil => none
  | .node l k v bf r =>
    match r with
    | .node rl rk rv rbf rr =>
      -- `while (max.right) max = max.right`: the exported pair comes from
      -- the right spine; on the way back up the deletion walk adjusts this
      -- node for a shrink of its right child.
      match cascadeMax (.node rl rk rv rbf rr) with
      | some (kv, r', sh) =>
        some (if sh then (kv, delRebalance (.node l k v bf r') false)
          else (kv, .node l k v bf r', false))
      | none => none
    | .nil =>
      match l with
      | .nil =>
        -- childless: this is the physically unlinked leaf
        some ((k, v), .nil, true)
      | .node ll lk lv lbf lr =>
        -- `if (max.left) { node = max; max = max.left }`: export this
        -- node's pair upward, refill it from the cascade of its left
        -- subtree.
        match cascadeMax (.node ll lk lv lbf lr) with
        | some ((k₂, v₂), l', sh) =>
          some ((k, v),
            if sh then delRebalance (.node l' k₂ v₂ bf .nil) true
            else (.node l' k₂ v₂ bf .nil, false))
        | none => none

/-- Mirror image of `cascadeMax`: the right-subtree copy-down cascade of
`delete` (`index.ts`), used when the deleted node has no left child. -/
def cascadeMin : Tree K V → Option ((K × V) × Tree K V × Bool)
  | .nil => none
  | .node l k v bf r =>
    match l with
    | .node ll lk lv lbf lr =>
      match cascadeMin (.node ll lk lv lbf lr) with
      | some (kv, l', sh) =>
        some (if sh then (kv, delRebalance (.node l' k v bf r) true)
          else (kv, .node l' k v bf r, false))
      | none => none
    | .nil =>
      match r with
      | .nil => some ((k, v), .nil, true)
      | .node rl rk rv rbf rr =>
        match cascadeMin (.node rl rk rv rbf rr) with
        | some ((k₂, v₂), r', sh) =>
          some ((k, v),
            if sh then delRebalance (.node .nil k₂ v₂ bf r') false
            else (.node .nil k₂ v₂ bf r', false))
        | none => none

/-- Recursive core of `AVLTree.delete` (`index.ts`): locate the first node
matching `key` on the descent, reduce it to a leaf by the copy-down cascade
(left subtree first, else right subtree), unlink that leaf, and run the
rebalancing walk upward along the access path.  Returns `none` when the key
is absent (no structural change), otherwise the new subtree and whether the
walk is still propagating a height decrease. -/
def delNode (key : K) : Tree K V → Option (Tree K V × Bool)
  | .nil => none
  | .node l k v bf r =>
    let cmp := DEFAULT_COMPARE key k
    if cmp = 0 then
      match l with
      | .node ll lk lv lbf lr =>
        match cascadeMax (.node ll lk lv lbf lr) with
        | some ((k', v'), l', sh) =>
          if sh then some (delRebalance (.node l' k' v' bf r) true)
          else some (.node l' k' v' bf r, false)
        | none => none
      | .nil =>
        match r with
        | .node rl rk rv rbf rr =>
          match cascadeMin (.node rl rk rv rbf rr) with
          | some ((k', v'), r', sh) =>
            if sh then some (delRebalance (.node .nil k' v' bf r') false)
            else some (.node .nil k' v' bf r', false)
          | none => none
        | .nil => some (.nil, true)
    else if cmp < 0 then
      match delNode key l with
      | none => none
      | some (l', sh) =>
        if sh then some (delRebalance (.node l' k v bf r) true)
        else some (.node l' k v bf r, false)
    else
      match delNode key r with
      | none => none
      | some (r', sh) =>
        if sh then some (delRebalance (.node l k v bf r') false)
        else some (.node l k v bf r', false)

/-- Termination measure for the stack-based in-order loops of `index.ts`
(`forEach`, `keys`, `values`, `entries`, `at`, `range`): a stacked node
still owes one pop plus the traversal of its right subtree. -/
def stackMeasure : List (Tree K V) → Nat
  | [] => 0
  | .nil :: s => 1 + stackMeasure s
  | .node _ _ _ _ r :: s => 2 * r.count + 1 + stackMeasure s

/-- The shared stack-based in-order loop of `forEach`/`keys`/`values`/
`entries` (`index.ts`), with no early stop: push left spines, pop, visit,
move to the popped node's right subtree.  Returns the visited key/value
pairs in visit order. -/
def inorderLoop : List (Tree K V) → Tree K V → List (K × V)
  | s, .node l k v bf r => inorderLoop (.node l k v bf r :: s) l
  | [], .nil => []
  | .nil :: _, .nil => []
  | .node _ k v _ r :: s, .nil => (k, v) :: inorderLoop s r
termination_by s t => 2 * t.count + stackMeasure s
decreasing_by
  all_goals simp [stackMeasure, Tree.count]
  all_goals omega

/-- The loop of `AVLTree.at` (`index.ts`): `forEach` with the callback
`(node, i) => { if (i === index) return (r = node) }` — the callback
returns the node (truthy) exactly at position `index`, stopping the
iteration there with `r` set to that node. -/
def atLoop (index : Nat) : List (Tree K V) → Tree K V → Nat → Option (K × V)
  | s, .node l k v bf r, i => atLoop index (.node l k v bf r :: s) l i
  | [], .nil, _ => none
  | .nil :: _, .nil, _ => none
  | .node _ k v _ r :: s, .nil, i =>
    if i = index then some (k, v) else atLoop index s r (i + 1)
termination_by s t _ => 2 * t.count + stackMeasure s
decreasing_by
  all_goals simp [stackMeasure, Tree.count]
  all_goals omega

/-- The loop of `AVLTree.range` (`index.ts`): same stack-based walk, but on
each pop first `break` when the popped key already exceeds `high`, invoke
the visitor only when the key is at least `low`, and `return` as soon as
the visitor answers truthy.  Returns the visitor invocations in order. -/
def rangeLoop (low high : K) (f : K → V → Bool) :
    List (Tree K V) → Tree K V → List (K × V)
  | s, .node l k v bf r => rangeLoop low high f (.node l k v bf r :: s) l
  | [], .nil => []
  | .nil :: _, .nil => []
  | .node _ k v _ r :: s, .nil =>
    if DEFAULT_COMPARE k high > 0 then []
    else if DEFAULT_COMPARE k low ≥ 0 then
      if f k v then [(k, v)]
      else (k, v) :: rangeLoop low high f s r
    else rangeLoop low high f s r
termination_by s t => 2 * t.count + stackMeasure s
decreasing_by
  all_goals simp [stackMeasure, Tree.count]
  all_goals omega

/-- `loadRecursive` from `utils.ts`: split the index range at its midpoint,
make the middle element the subtree root (balance factor 0 for now) and
recurse on the two halves.  Out-of-range reads (`keys[middle]` past the end,
possible when `values` is shorter) yield the JS `undefined`, modelled by the
`Inhabited` default. -/
def loadRecursive [Inhabited K] [Inhabited V] (keys : List K) (values : List V)
    (start stop : Nat) : Tree K V :=
  if h : start < stop then
    let sz := stop - start
    let middle := start + sz / 2
    .node (loadRecursive keys values start middle)
      (keys.getD middle default) (values.getD middle default) 0
      (loadRecursive keys values (middle + 1) stop)
  else .nil
termination_by stop - start
decreasing_by
  · have : (stop - start) / 2 < stop - start := Nat.div_lt_self (by omega) (by omega)
    omega
  · have : (stop - start) / 2 < stop - start := Nat.div_lt_self (by omega) (by omega)
    omega

/-- `markBalance` from `utils.ts`: recompute every node's `balanceFactor`
bottom-up as the height difference of its children; returns the height. -/
def markBalance : Tree K V → Tree K V × Nat
  | .nil => (.nil, 0)
  | .node l k v _ r =>
    let (l', lh) := markBalance l
    let (r', rh) := markBalance r
    (.node l' k v ((lh : Int) - rh) r', max lh rh + 1)

/-- `isBalanced` from `utils.ts`: diagnostic full recursive height check. -/
def isBalanced : Tree K V → Bool
  | .nil => true
  | .node l _ _ _ r =>
    ((l.height : Int) - r.height).natAbs ≤ 1 && isBalanced l && isBalanced r

end Ops

/-- The `AVLTree` object state: root, node count and the
"reject duplicates" flag fixed at construction (`index.ts`). -/
structure AVLTree (K V : Type) where
  root : Tree K V
  size : Nat
  noDuplicates : Bool
deriving Repr, DecidableEq

namespace AVLTree

variable {K V : Type} [LinearOrder K]

/-- A freshly constructed tree. -/
def empty (noDup : Bool := false) : AVLTree K V := ⟨.nil, 0, noDup⟩

/-- `AVLTree.set` (`index.ts`): insert a new key/value pair or (in
reject-duplicates mode, on an exact match) update an existing entry in
place.  `_size` increments exactly when a node was attached. -/
def set (t : AVLTree K V) (key : K) (value : V) : AVLTree K V :=
  match insRec t.noDuplicates key value t.root with
  | (root', _, inserted) =>
    { t with root := root', size := if inserted then t.size + 1 else t.size }

/-- `AVLTree.has`. -/
def hasT (t : AVLTree K V) (key : K) : Bool := has key t.root

/-- `AVLTree.get`. -/
def getT (t : AVLTree K V) (key : K) : Option V := get key t.root

/-- `AVLTree.delete` (`index.ts`): `if (!this._root || !key) return false`,
then locate-and-remove via the cascade and rebalancing walk.  `falsy`
models JS truthiness of keys (`!key`); for number keys exactly `0` and
`NaN` are falsy.  Returns whether a node was removed, with the new state. -/
def delete (falsy : K → Bool) (t : AVLTree K V) (key : K) :
    Bool × AVLTree K V :=
  if t.root.isNil ∨ falsy key then (false, t)
  else
    match delNode key t.root with
    | none => (false, t)
    | some (root', _) =>
      (true, { t with root := root', size := t.size - 1 })

/-- `AVLTree.shift` (`index.ts`): read the minimum node's key/value, then
`this.delete(node.key)`; returns the pair read (whether or not the delete
succeeded). -/
def shift (falsy : K → Bool) (t : AVLTree K V) :
    Option (K × V) × AVLTree K V :=
  match minNode t.root with
  | none => (none, t)
  | some (k, v) => (some (k, v), (delete falsy t k).2)

/-- `AVLTree.pop` (`index.ts`): read the maximum node's key/value, then
`this.delete(node.key)`. -/
def pop (falsy : K → Bool) (t : AVLTree K V) :
    Option (K × V) × AVLTree K V :=
  match maxNode t.root with
  | none => (none, t)
  | some (k, v) => (some (k, v), (delete falsy t k).2)

/-- `AVLTree.load` (`index.ts`): bulk-load into an empty tree only;
`if (this._size !== 0) throw new Error('bulk-load: tree is not empty')`
fires before any mutation.  The `presort` branch (the quicksort helper, an
external collaborator presorting the input in place) is outside the
modelled fragment: the claims under verification only concern presorted
input.  On success the root is `loadRecursive` over the full index range
with balance factors recomputed bottom-up by `markBalance`, and `_size`
becomes `keys.length`. -/
def load [Inhabited K] [Inhabited V] (t : AVLTree K V) (keys : List K)
    (values : List V) : Except String (AVLTree K V) :=
  if t.size ≠ 0 then .error "bulk-load: tree is not empty"
  else
    let sz := keys.length
    let root := loadRecursive keys values 0 sz
    .ok { t with root := (markBalance root).1, size := sz }

/-- `AVLTree.isBalanced`. -/
def isBalancedT (t : AVLTree K V) : Bool := isBalanced t.root

/-- `AVLTree.min`. -/
def minT (t : AVLTree K V) : Option K := (minNode t.root).map Prod.fst

/-- `AVLTree.max`. -/
def maxT (t : AVLTree K V) : Option K := (maxNode t.root).map Prod.fst

/-- `AVLTree.keys`: the stack-based in-order generator, keys only. -/
def keysT (t : AVLTree K V) : List K := (inorderLoop [] t.root).map Prod.fst

/-- `AVLTree.values`. -/
def valuesT (t : AVLTree K V) : List V :=
  (inorderLoop [] t.root).map Prod.snd

/-- `AVLTree.entries`. -/
def entriesT (t : AVLTree K V) : List (K × V) := inorderLoop [] t.root

/-- `AVLTree.at`: 0-based in-order position via the `forEach` walk. -/
def atT (t : AVLTree K V) (index : Nat) : Option (K × V) :=
  atLoop index [] t.root 0

/-- `AVLTree.range`: walks keys from `low` to `high`, stopping when the
visitor returns a value; the result is the visitor invocation sequence. -/
def rangeT (t : AVLTree K V) (low high : K) (f : K → V → Bool) :
    List (K × V) :=
  rangeLoop low high f [] t.root

/-!  Explicit state-passing forms of the read-only queries, used to state
frame properties: each is the translation of the corresponding method body,
which contains no assignment to `_root`, `_size`, `_noDuplicates` or to any
node field, so the method's final object state is its initial state. -/

/-- State-passing `has`. -/
def hasS (t : AVLTree K V) (key : K) : Bool × AVLTree K V :=
  (has key t.root, t)

/-- State-passing `get`. -/
def getS (t : AVLTree K V) (key : K) : Option V × AVLTree K V :=
  (get key t.root, t)

/-- State-passing `min`. -/
def minS (t : AVLTree K V) : Option K × AVLTree K V := (minT t, t)

/-- State-passing `max`. -/
def maxS (t : AVLTree K V) : Option K × AVLTree K V := (maxT t, t)

/-- State-passing `minNode`. -/
def minNodeS (t : AVLTree K V) : Option (K × V) × AVLTree K V :=
  (minNode t.root, t)

/-- State-passing `maxNode`. -/
def maxNodeS (t : AVLTree K V) : Option (K × V) × AVLTree K V :=
  (maxNode t.root, t)

/-- State-passing `at`. -/
def atS (t : AVLTree K V) (index : Nat) : Option (K × V) × AVLTree K V :=
  (atT t index, t)

/-- State-passing `keys`. -/
def keysS (t : AVLTree K V) : List K × AVLTree K V := (keysT t, t)

/-- State-passing `values`. -/
def valuesS (t : AVLTree K V) : List V × AVLTree K V := (valuesT t, t)

/-- State-passing `entries`. -/
def entriesS (t : AVLTree K V) : List (K × V) × AVLTree K V :=
  (entriesT t, t)

/-- State-passing `isBalanced`. -/
def isBalancedS (t : AVLTree K V) : Bool × AVLTree K V :=
  (isBalancedT t, t)

end AVLTree

section Invariants

variable {K V : Type} [LinearOrder K]

/-- Data-model invariant (spec §3): `balanceFactor` exactly equals
`height(left) − height(right)` at every node. -/
def bfCorrect : Tree K V → Bool
  | .nil => true
  | .node l _ _ bf r =>
    (bf == (l.height : Int) - r.height) && bfCorrect l && bfCorrect r

/-- Data-model invariant: every node's `balanceFactor` lies in `[-1, 1]`. -/
def balanceOk : Tree K V → Bool
  | .nil => true
  | .node l _ _ bf r => (-1 ≤ bf && bf ≤ 1) && balanceOk l && balanceOk r

/-- The BST order invariant exactly as the spec states it (§3): all keys in
the left subtree compare less-than-or-equal (strictly less in
reject-duplicates mode) to the node's key, and all keys in the right
subtree compare (strictly) greater. -/
def specBST (noDup : Bool) : Tree K V → Bool
  | .nil => true
  | .node l k _ _ r =>
    l.keysOf.all (fun x => if noDup then x < k else x ≤ k) &&
    r.keysOf.all (fun x => k < x) && specBST noDup l && specBST noDup r

/-- The weakened BST order invariant that the code actually maintains in
duplicate-allowed mode: all keys on the left are `≤` the node's key and all
keys on the right are `≥` it (rotations can move a duplicate of the node's
key into its right subtree). -/
def weakBST : Tree K V → Bool
  | .nil => true
  | .node l k _ _ r =>
    l.keysOf.all (fun x => x ≤ k) && r.keysOf.all (fun x => k ≤ x) &&
    weakBST l && weakBST r

/-- All data-model invariants of an `AVLTree` object, with the BST clause in
its weakened (duplicate-tolerant) form: weak BST order, truthful balance
factors, balance factors within `[-1, 1]`, and `_size` equal to the number
of nodes reachable from `_root`. -/
def invariants (t : AVLTree K V) : Bool :=
  weakBST t.root && bfCorrect t.root && balanceOk t.root &&
    (t.size == t.root.count)

end Invariants

/-- JS truthiness of a number key: `!key` is `true` exactly for `0` (and
`NaN`, which has no `Int` counterpart). -/
def falsyNum : Int → Bool := fun k => k == 0

/-- A mutating public operation: `set(key, value)` or `delete(key)`. -/
inductive Op (K V : Type) where
  | set (key : K) (value : V)
  | del (key : K)

/-- Apply one public mutating operation to the tree state. -/
def applyOp {K V : Type} [LinearOrder K] (falsy : K → Bool)
    (t : AVLTree K V) : Op K V → AVLTree K V
  | .set k v => t.set k v
  | .del k => (AVLTree.delete falsy t k).2

/-- Run a sequence of public mutating operations from a freshly constructed
tree. -/
def applyOps {K V : Type} [LinearOrder K] (falsy : K → Bool) (noDup : Bool)
    (ops : List (Op K V)) : AVLTree K V :=
  ops.foldl (applyOp falsy) (AVLTree.empty noDup)

/-- The value of the most recent `set` call for `k` in a list of
`(key, value)` set operations (earliest first), if any: a later operation
with key `k` takes precedence over every earlier one. -/
def lastSet {K V : Type} [DecidableEq K] : List (K × V) → K → Option V
  | [], _ => none
  | p :: rest, k =>
    match lastSet rest k with
    | some v => some v
    | none => if p.1 = k then some p.2 else none

/-- Reference behaviour of `range(low, high, fn)` on the ascending key/value
sequence: invoke the visitor exactly on pairs whose key lies in
`[low, high]` (both bounds inclusive), in sequence order, and stop — the
truthy invocation included — as soon as the visitor answers truthy. -/
def rangeSpec {K V : Type} [LinearOrder K] (low high : K) (f : K → V → Bool) :
    List (K × V) → List (K × V)
  | [] => []
  | (k, v) :: rest =>
    if low ≤ k ∧ k ≤ high then
      if f k v then [(k, v)] else (k, v) :: rangeSpec low high f rest
    else rangeSpec low high f rest

/-- Reference model of reject-duplicates insertion on the ascending
key/value list: replace the binding of `key` if present, otherwise insert
`(key, value)` at its sorted position. -/
def listUpsert {K V : Type} [LinearOrder K] (key : K) (value : V) :
    List (K × V) → List (K × V)
  | [] => [(key, value)]
  | (k, v) :: rest =>
    if key < k then (key, value) :: (k, v) :: rest
    else if key = k then (key, value) :: rest
    else (k, v) :: listUpsert key value rest

/-- Reference model of duplicate-allowed insertion on the (weakly)
ascending key/value list: insert `(key, value)` before the first pair whose
key is `≥ key` (ties descend left, so the new pair precedes equal keys). -/
def listInsertB {K V : Type} [LinearOrder K] (key : K) (value : V) :
    List (K × V) → List (K × V)
  | [] => [(key, value)]
  | (k, v) :: rest =>
    if key ≤ k then (key, value) :: (k, v) :: rest
    else (k, v) :: listInsertB key value rest

/-- First binding of `key` in a key/value list. -/
def listFind {K V : Type} [DecidableEq K] (key : K) :
    List (K × V) → Option V
  | [] => none
  | (k, v) :: rest => if k = key then some v else listFind key rest

/-- The pop-step behaviour of the `range` loop replayed on the remaining
in-order sequence: `break` at the first key above `high`, invoke the
visitor on keys at or above `low`, stop on a truthy answer. -/
def rangeProc {K V : Type} [LinearOrder K] (low high : K)
    (f : K → V → Bool) : List (K × V) → List (K × V)
  | [] => []
  | (k, v) :: rest =>
    if DEFAULT_COMPARE k high > 0 then []
    else if DEFAULT_COMPARE k low ≥ 0 then
      if f k v then [(k, v)] else (k, v) :: rangeProc low high f rest
    else rangeProc low high f rest

/-!
## Lemmas and claim theorems
-/

section BasicLemmas

variable {K V : Type} [LinearOrder K]

theorem DEFAULT_COMPARE_eq_zero {a b : K} : DEFAULT_COMPARE a b = 0 ↔ a = b := by
  unfold DEFAULT_COMPARE
  rcases lt_trichotomy a b with h | h | h
  · rw [if_neg (not_lt_of_gt h), if_pos h]
    simp [ne_of_lt h]
  · subst h; simp [lt_irrefl]
  · rw [if_pos h]
    simp [ne_of_gt h]

theorem DEFAULT_COMPARE_neg {a b : K} : DEFAULT_COMPARE a b < 0 ↔ a < b := by
  unfold DEFAULT_COMPARE
  rcases lt_trichotomy a b with h | h | h
  · rw [if_neg (not_lt_of_gt h), if_pos h]; simp [h]
  · subst h; simp [lt_irrefl]
  · rw [if_pos h]; simp [not_lt_of_gt h]

theorem DEFAULT_COMPARE_pos {a b : K} : 0 < DEFAULT_COMPARE a b ↔ b < a := by
  unfold DEFAULT_COMPARE
  rcases lt_trichotomy a b with h | h | h
  · rw [if_neg (not_lt_of_gt h), if_pos h]; simp [not_lt_of_gt h]
  · subst h; simp [lt_irrefl]
  · rw [if_pos h]; simp [h]

end BasicLemmas

section ListLemmas

variable {K V : Type} [LinearOrder K] {key : K} {value : V}

theorem listUpsert_append_lt {k : K} {v : V} (hk : key < k)
    (l r : List (K × V)) :
    listUpsert key value (l ++ (k, v) :: r) =
      listUpsert key value l ++ (k, v) :: r := by
  induction l with
  | nil => simp [listUpsert, hk]
  | cons p rest ih =>
    obtain ⟨k₁, v₁⟩ := p
    by_cases h₁ : key < k₁
    · simp [listUpsert, h₁]
    · by_cases h₂ : key = k₁ <;> simp [listUpsert, h₁, h₂, ih]

theorem listUpsert_append_ge (l r : List (K × V))
    (hl : ∀ p ∈ l, p.1 < key) :
    listUpsert key value (l ++ r) = l ++ listUpsert key value r := by
  induction l with
  | nil => simp
  | cons p rest ih =>
    obtain ⟨k₁, v₁⟩ := p
    have h₁ : k₁ < key := hl (k₁, v₁) (by simp)
    have h₂ : ¬key = k₁ := ne_of_gt h₁
    simp only [List.cons_append, listUpsert, if_neg (not_lt_of_gt h₁),
      if_neg h₂]
    congr 1
    exact ih (fun p hp => hl p (by simp [hp]))

theorem listInsertB_append_le {k : K} {v : V} (hk : key ≤ k)
    (l r : List (K × V)) :
    listInsertB key value (l ++ (k, v) :: r) =
      listInsertB key value l ++ (k, v) :: r := by
  induction l with
  | nil => simp [listInsertB, hk]
  | cons p rest ih =>
    obtain ⟨k₁, v₁⟩ := p
    by_cases h₁ : key ≤ k₁ <;> simp [listInsertB, h₁, ih]

theorem listInsertB_append_gt (l r : List (K × V))
    (hl : ∀ p ∈ l, p.1 < key) :
    listInsertB key value (l ++ r) = l ++ listInsertB key value r := by
  induction l with
  | nil => simp
  | cons p rest ih =>
    obtain ⟨k₁, v₁⟩ := p
    have h₁ : k₁ < key := hl (k₁, v₁) (by simp)
    simp [listInsertB, not_le_of_gt h₁]
    exact ih (fun p hp => hl p (by simp [hp]))

theorem listFind_eq_none {l : List (K × V)} (h : ∀ p ∈ l, p.1 ≠ key) :
    listFind key l = none := by
  induction l with
  | nil => rfl
  | cons p rest ih =>
    obtain ⟨k₁, v₁⟩ := p
    have := h (k₁, v₁) (by simp)
    simp only [listFind, if_neg this]
    exact ih (fun p hp => h p (by simp [hp]))

theorem listFind_append_left {l r : List (K × V)}
    (h : ∀ p ∈ r, p.1 ≠ key) :
    listFind key (l ++ r) = listFind key l := by
  induction l with
  | nil => simpa using listFind_eq_none h
  | cons p rest ih =>
    obtain ⟨k₁, v₁⟩ := p
    by_cases h₁ : k₁ = key <;> simp [listFind, h₁, ih]

theorem listFind_append_right {l r : List (K × V)}
    (h : ∀ p ∈ l, p.1 ≠ key) :
    listFind key (l ++ r) = listFind key r := by
  induction l with
  | nil => simp
  | cons p rest ih =>
    obtain ⟨k₁, v₁⟩ := p
    have := h (k₁, v₁) (by simp)
    simp only [List.cons_append, listFind, if_neg this]
    exact ih (fun p hp => h p (by simp [hp]))

theorem listUpsert_keys_mem {l : List (K × V)} {b : K}
    (hb : b ∈ (listUpsert key value l).map Prod.fst) :
    b = key ∨ b ∈ l.map Prod.fst := by
  induction l with
  | nil => simpa [listUpsert] using hb
  | cons p rest ih =>
    obtain ⟨k₁, v₁⟩ := p
    by_cases h₁ : key < k₁
    · simp [listUpsert, h₁] at hb ⊢
      tauto
    · by_cases h₂ : key = k₁
      · simp [listUpsert, h₁, h₂] at hb ⊢
        tauto
      · simp only [listUpsert, if_neg h₁, if_neg h₂, List.map_cons,
          List.mem_cons] at hb
        rcases hb with hb | hb
        · simp [hb]
        · rcases ih hb with h | h
          · exact Or.inl h
          · exact Or.inr (by simp [h])

theorem listUpsert_sorted {l : List (K × V)}
    (hs : (l.map Prod.fst).Sorted (· < ·)) :
    ((listUpsert key value l).map Prod.fst).Sorted (· < ·) := by
  induction l with
  | nil => simp [listUpsert]
  | cons p rest ih =>
    obtain ⟨k₁, v₁⟩ := p
    simp only [List.map_cons, List.sorted_cons] at hs
    by_cases h₁ : key < k₁
    · simp only [listUpsert, if_pos h₁, List.map_cons, List.sorted_cons]
      refine ⟨?_, ?_, hs.2⟩
      · intro b hb
        simp only [List.map_cons, List.mem_cons] at hb
        rcases hb with hb | hb
        · exact hb ▸ h₁
        · exact h₁.trans (hs.1 b hb)
      · exact hs.1
    · by_cases h₂ : key = k₁
      · subst h₂
        simp [listUpsert, h₁, List.sorted_cons]
        exact ⟨fun b x hb => hs.1 b (by simp [List.mem_map]; exact ⟨x, hb⟩),
          hs.2⟩
      · have hk₁ : k₁ < key :=
          (lt_trichotomy key k₁).resolve_left h₁ |>.resolve_left h₂
        simp only [listUpsert, if_neg h₁, if_neg h₂, List.map_cons,
          List.sorted_cons]
        refine ⟨?_, ih hs.2⟩
        intro b hb
        rcases listUpsert_keys_mem hb with h | h
        · exact h ▸ hk₁
        · exact hs.1 b h

theorem listInsertB_keys_mem {l : List (K × V)} {b : K}
    (hb : b ∈ (listInsertB key value l).map Prod.fst) :
    b = key ∨ b ∈ l.map Prod.fst := by
  induction l with
  | nil => simpa [listInsertB] using hb
  | cons p rest ih =>
    obtain ⟨k₁, v₁⟩ := p
    by_cases h₁ : key ≤ k₁
    · simp [listInsertB, h₁] at hb ⊢
      tauto
    · simp only [listInsertB, if_neg h₁, List.map_cons, List.mem_cons] at hb
      rcases hb with hb | hb
      · simp [hb]
      · rcases ih hb with h | h
        · exact Or.inl h
        · exact Or.inr (by simp [h])

theorem listInsertB_sorted {l : List (K × V)}
    (hs : (l.map Prod.fst).Sorted (· ≤ ·)) :
    ((listInsertB key value l).map Prod.fst).Sorted (· ≤ ·) := by
  induction l with
  | nil => simp [listInsertB]
  | cons p rest ih =>
    obtain ⟨k₁, v₁⟩ := p
    simp only [List.map_cons, List.sorted_cons] at hs
    by_cases h₁ : key ≤ k₁
    · simp only [listInsertB, if_pos h₁, List.map_cons, List.sorted_cons]
      refine ⟨?_, ?_, hs.2⟩
      · intro b hb
        simp only [List.map_cons, List.mem_cons] at hb
        rcases hb with hb | hb
        · exact hb ▸ h₁
        · exact h₁.trans (hs.1 b hb)
      · exact hs.1
    · have hk₁ : k₁ ≤ key := le_of_lt (lt_of_not_le h₁)
      simp only [listInsertB, if_neg h₁, List.map_cons, List.sorted_cons]
      refine ⟨?_, ih hs.2⟩
      intro b hb
      rcases listInsertB_keys_mem hb with h | h
      · exact h ▸ hk₁
      · exact hs.1 b h

end ListLemmas

section InorderLemmasPlain

variable {K V : Type}

open Tree

theorem keysOf_node (l : Tree K V) (k : K) (v : V) (bf : Int) (r : Tree K V) :
    keysOf (node l k v bf r) = keysOf l ++ k :: keysOf r := by
  simp [keysOf, inorder]

theorem count_eq_length_inorder (t : Tree K V) :
    t.count = t.inorder.length := by
  induction t with
  | nil => rfl
  | node l k v bf r ihl ihr => simp [count, inorder, ihl, ihr]; omega

theorem rotateLeft_inorder {t t' : Tree K V} (h : rotateLeft t = some t') :
    t'.inorder = t.inorder := by
  match t with
  | .nil => simp [rotateLeft] at h
  | .node l k v bf .nil => simp [rotateLeft] at h
  | .node l k v bf (.node rl rk rv rbf rr) =>
    simp only [rotateLeft, Option.some.injEq] at h
    subst h
    simp [inorder]

theorem rotateRight_inorder {t t' : Tree K V} (h : rotateRight t = some t') :
    t'.inorder = t.inorder := by
  match t with
  | .nil => simp [rotateRight] at h
  | .node .nil k v bf r => simp [rotateRight] at h
  | .node (.node ll lk lv lbf lr) k v bf r =>
    simp only [rotateRight, Option.some.injEq] at h
    subst h
    simp [inorder]

theorem getD_rotateLeft_inorder (t : Tree K V) :
    ((rotateLeft t).getD t).inorder = t.inorder := by
  cases h : rotateLeft t with
  | none => rfl
  | some t' => simpa using rotateLeft_inorder h

theorem getD_rotateRight_inorder (t : Tree K V) :
    ((rotateRight t).getD t).inorder = t.inorder := by
  cases h : rotateRight t with
  | none => rfl
  | some t' => simpa using rotateRight_inorder h

theorem insRotate_inorder (t : Tree K V) :
    (insRotate t).inorder = t.inorder := by
  match t with
  | .nil => rfl
  | .node l k v bf r =>
    by_cases h1 : bf < -1
    · by_cases hr : rootBF r = 1
      · simp [insRotate, h1, hr, getD_rotateLeft_inorder,
          getD_rotateRight_inorder, inorder]
      · simp [insRotate, h1, hr, getD_rotateLeft_inorder]
    · by_cases h2 : bf > 1
      · by_cases hl : rootBF l = -1
        · simp [insRotate, h1, h2, hl, getD_rotateRight_inorder,
            getD_rotateLeft_inorder, inorder]
        · simp [insRotate, h1, h2, hl, getD_rotateRight_inorder]
      · simp [insRotate, h1, h2]

theorem delRebalance_inorder (t : Tree K V) (d : Bool) :
    (delRebalance t d).1.inorder = t.inorder := by
  match t with
  | .nil => rfl
  | .node l k v bf r =>
    rw [delRebalance]
    have := insRotate_inorder
      (.node l k v (if d then bf - 1 else bf + 1) r : Tree K V)
    simpa [inorder] using this

theorem mem_keysOf_of_mem_inorder {t : Tree K V} {p : K × V}
    (hp : p ∈ t.inorder) : p.1 ∈ keysOf t :=
  List.mem_map_of_mem Prod.fst hp

end InorderLemmasPlain

section InorderLemmas

variable {K V : Type} [LinearOrder K]

open Tree

theorem sorted_node_strict {l : Tree K V} {k : K} {v : V} {bf : Int}
    {r : Tree K V}
    (hs : (keysOf (node l k v bf r)).Sorted (· < ·)) :
    (keysOf l).Sorted (· < ·) ∧ (keysOf r).Sorted (· < ·) ∧
    (∀ x ∈ keysOf l, x < k) ∧ (∀ y ∈ keysOf r, k < y) := by
  rw [keysOf_node] at hs
  have hp : (keysOf l ++ k :: keysOf r).Pairwise (· < ·) := hs
  rw [List.pairwise_append] at hp
  obtain ⟨h1, h2, h3⟩ := hp
  rw [List.pairwise_cons] at h2
  exact ⟨h1, h2.2, fun x hx => h3 x hx k (by simp), h2.1⟩

theorem sorted_node_weak {l : Tree K V} {k : K} {v : V} {bf : Int}
    {r : Tree K V}
    (hs : (keysOf (node l k v bf r)).Sorted (· ≤ ·)) :
    (keysOf l).Sorted (· ≤ ·) ∧ (keysOf r).Sorted (· ≤ ·) ∧
    (∀ x ∈ keysOf l, x ≤ k) ∧ (∀ y ∈ keysOf r, k ≤ y) := by
  rw [keysOf_node] at hs
  have hp : (keysOf l ++ k :: keysOf r).Pairwise (· ≤ ·) := hs
  rw [List.pairwise_append] at hp
  obtain ⟨h1, h2, h3⟩ := hp
  rw [List.pairwise_cons] at h2
  exact ⟨h1, h2.2, fun x hx => h3 x hx k (by simp), h2.1⟩

/-- In reject-duplicates mode, `insRec` acts on the (strictly sorted)
in-order sequence as sorted upsert. -/
theorem insRec_inorder_noDup (key : K) (value : V) (t : Tree K V)
    (hs : (keysOf t).Sorted (· < ·)) :
    (insRec true key value t).1.inorder = listUpsert key value t.inorder := by
  induction t with
  | nil => simp [insRec, inorder, listUpsert]
  | node l k v bf r ihl ihr =>
    obtain ⟨hsl, hsr, hlk, hkr⟩ := sorted_node_strict hs
    have hnode : (Tree.node l k v bf r).inorder
        = l.inorder ++ (k, v) :: r.inorder := rfl
    rcases lt_trichotomy key k with hlt | heq | hgt
    · -- descend left
      have hc0 : ¬DEFAULT_COMPARE key k = 0 := by
        rw [DEFAULT_COMPARE_eq_zero]; exact ne_of_lt hlt
      have hcneg : DEFAULT_COMPARE key k < 0 := DEFAULT_COMPARE_neg.mpr hlt
      rw [insRec]
      rw [if_neg (by simp [hc0])]
      rw [if_pos (by simp; exact hcneg)]
      rcases hrec : insRec true key value l with ⟨l', g, ins⟩
      have hl' : l'.inorder = listUpsert key value l.inorder := by
        have := ihl hsl; rw [hrec] at this; exact this
      rw [hnode, listUpsert_append_lt hlt]
      cases g
      · simp [inorder, hl']
      · simp only []
        split_ifs <;> simp [inorder, insRotate_inorder, hl']
    · -- exact match: in-place value update
      subst heq
      have hc0 : DEFAULT_COMPARE key key = 0 := DEFAULT_COMPARE_eq_zero.mpr rfl
      rw [insRec]
      rw [if_pos (by simp [hc0])]
      have hsplit : listUpsert key value (l.inorder ++ (key, v) :: r.inorder)
          = l.inorder ++ listUpsert key value ((key, v) :: r.inorder) :=
        listUpsert_append_ge _ _
          (fun p hp => hlk p.1 (mem_keysOf_of_mem_inorder hp))
      rw [hnode, hsplit]
      simp [inorder, listUpsert, lt_irrefl]
    · -- descend right
      have hc0 : ¬DEFAULT_COMPARE key k = 0 := by
        rw [DEFAULT_COMPARE_eq_zero]; exact ne_of_gt hgt
      have hcpos : ¬DEFAULT_COMPARE key k < 0 := by
        rw [DEFAULT_COMPARE_neg]; exact not_lt_of_gt hgt
      rw [insRec]
      rw [if_neg (by simp [hc0])]
      rw [if_neg (by simp; omega)]
      rcases hrec : insRec true key value r with ⟨r', g, ins⟩
      have hr' : r'.inorder = listUpsert key value r.inorder := by
        have := ihr hsr; rw [hrec] at this; exact this
      have hsplit : listUpsert key value (l.inorder ++ (k, v) :: r.inorder)
          = l.inorder ++ (k, v) :: listUpsert key value r.inorder := by
        rw [listUpsert_append_ge _ _
          (fun p hp => (hlk p.1 (mem_keysOf_of_mem_inorder hp)).trans hgt)]
        congr 1
        simp [listUpsert, not_lt_of_gt hgt, (ne_of_gt hgt : key ≠ k)]
      rw [hnode, hsplit]
      cases g
      · simp [inorder, hr']
      · simp only []
        split_ifs <;> simp [inorder, insRotate_inorder, hr']

/-- In duplicate-allowed mode, `insRec` inserts the new pair immediately
before the first in-order pair whose key is `≥ key` (ties descend left). -/
theorem insRec_inorder_dup (key : K) (value : V) (t : Tree K V)
    (hs : (keysOf t).Sorted (· ≤ ·)) :
    (insRec false key value t).1.inorder = listInsertB key value t.inorder := by
  induction t with
  | nil => simp [insRec, inorder, listInsertB]
  | node l k v bf r ihl ihr =>
    obtain ⟨hsl, hsr, hlk, hkr⟩ := sorted_node_weak hs
    have hnode : (Tree.node l k v bf r).inorder
        = l.inorder ++ (k, v) :: r.inorder := rfl
    by_cases hle : key ≤ k
    · -- ties and smaller keys descend left
      have hcle : DEFAULT_COMPARE key k ≤ 0 := by
        rcases lt_or_eq_of_le hle with h | h
        · exact le_of_lt (DEFAULT_COMPARE_neg.mpr h)
        · exact le_of_eq (DEFAULT_COMPARE_eq_zero.mpr h)
      rw [insRec]
      rw [if_neg (by simp)]
      rw [if_pos (by simp; exact hcle)]
      rcases hrec : insRec false key value l with ⟨l', g, ins⟩
      have hl' : l'.inorder = listInsertB key value l.inorder := by
        have := ihl hsl; rw [hrec] at this; exact this
      rw [hnode, listInsertB_append_le hle]
      cases g
      · simp [inorder, hl']
      · simp only []
        split_ifs <;> simp [inorder, insRotate_inorder, hl']
    · -- strictly greater keys descend right
      have hgt : k < key := lt_of_not_le hle
      have hcpos : ¬DEFAULT_COMPARE key k ≤ 0 := by
        intro h
        rcases lt_or_eq_of_le h with h1 | h1
        · exact absurd (DEFAULT_COMPARE_neg.mp h1) (not_lt_of_gt hgt)
        · exact absurd (DEFAULT_COMPARE_eq_zero.mp h1) (ne_of_gt hgt)
      rw [insRec]
      rw [if_neg (by simp)]
      rw [if_neg (by simp; omega)]
      rcases hrec : insRec false key value r with ⟨r', g, ins⟩
      have hr' : r'.inorder = listInsertB key value r.inorder := by
        have := ihr hsr; rw [hrec] at this; exact this
      have hsplit : listInsertB key value (l.inorder ++ (k, v) :: r.inorder)
          = l.inorder ++ (k, v) :: listInsertB key value r.inorder := by
        rw [listInsertB_append_gt _ _
          (fun p hp => lt_of_le_of_lt (hlk p.1 (mem_keysOf_of_mem_inorder hp))
            hgt)]
        congr 1
        simp [listInsertB, hle]
      rw [hnode, hsplit]
      cases g
      · simp [inorder, hr']
      · simp only []
        split_ifs <;> simp [inorder, insRotate_inorder, hr']

/-- On a strictly sorted tree, the iterative descent of `get` finds exactly
the first in-order binding of the key. -/
theorem get_eq_listFind (key : K) (t : Tree K V)
    (hs : (keysOf t).Sorted (· < ·)) :
    get key t = listFind key t.inorder := by
  induction t with
  | nil => rfl
  | node l k v bf r ihl ihr =>
    obtain ⟨hsl, hsr, hlk, hkr⟩ := sorted_node_strict hs
    have hnode : (Tree.node l k v bf r).inorder
        = l.inorder ++ (k, v) :: r.inorder := rfl
    rcases lt_trichotomy key k with hlt | heq | hgt
    · have hcneg : DEFAULT_COMPARE key k < 0 := DEFAULT_COMPARE_neg.mpr hlt
      have hc0 : ¬DEFAULT_COMPARE key k = 0 := by
        rw [DEFAULT_COMPARE_eq_zero]; exact ne_of_lt hlt
      simp only [get, if_neg hc0, if_pos hcneg]
      rw [hnode, listFind_append_left, ihl hsl]
      intro p hp
      rcases List.mem_cons.mp hp with hp | hp
      · rw [hp]; exact ne_of_gt hlt
      · exact ne_of_gt (hlt.trans (hkr p.1 (mem_keysOf_of_mem_inorder hp)))
    · subst heq
      have hc0 : DEFAULT_COMPARE key key = 0 := DEFAULT_COMPARE_eq_zero.mpr rfl
      simp only [get, if_pos hc0]
      rw [hnode, listFind_append_right
        (fun p hp => ne_of_lt (hlk p.1 (mem_keysOf_of_mem_inorder hp)))]
      simp [listFind]
    · have hc0 : ¬DEFAULT_COMPARE key k = 0 := by
        rw [DEFAULT_COMPARE_eq_zero]; exact ne_of_gt hgt
      have hcneg : ¬DEFAULT_COMPARE key k < 0 := by
        rw [DEFAULT_COMPARE_neg]; exact not_lt_of_gt hgt
      simp only [get, if_neg hc0, if_neg hcneg]
      have hre : l.inorder ++ (k, v) :: r.inorder
          = (l.inorder ++ [(k, v)]) ++ r.inorder := by simp
      have hne : ∀ p ∈ l.inorder ++ [(k, v)], p.1 ≠ key := by
        intro p hp
        rcases List.mem_append.mp hp with hp | hp
        · exact ne_of_lt ((hlk p.1 (mem_keysOf_of_mem_inorder hp)).trans hgt)
        · rw [List.mem_singleton.mp hp]; exact ne_of_lt hgt
      rw [hnode, hre, listFind_append_right hne, ihr hsr]

/-- `has` answers exactly whether `get` finds a binding (same descent). -/
theorem has_eq_get (key : K) (t : Tree K V) :
    has key t = (get key t).isSome := by
  induction t with
  | nil => rfl
  | node l k v bf r ihl ihr =>
    simp only [has, get]
    split_ifs <;> simp [ihl, ihr]

theorem listFind_listUpsert (key k : K) (value : V) (acc : List (K × V)) :
    listFind k (listUpsert key value acc)
      = if key = k then some value else listFind k acc := by
  induction acc with
  | nil =>
    by_cases h : key = k
    · subst h; simp [listUpsert, listFind]
    · simp [listUpsert, listFind, h]
  | cons p rest ih =>
    obtain ⟨k₁, v₁⟩ := p
    by_cases h₁ : key < k₁
    · by_cases h : key = k
      · subst h; simp [listUpsert, h₁, listFind]
      · simp [listUpsert, h₁, listFind, h]
    · by_cases h₂ : key = k₁
      · subst h₂
        by_cases h : key = k
        · subst h; simp [listUpsert, listFind]
        · simp [listUpsert, listFind, h]
      · by_cases hk : k₁ = k
        · subst hk
          simp [listUpsert, h₁, h₂, listFind]
        · simp [listUpsert, h₁, h₂, listFind, hk, ih]

theorem listFind_foldl_upsert (ops : List (K × V)) (acc : List (K × V))
    (k : K) :
    listFind k (ops.foldl (fun a p => listUpsert p.1 p.2 a) acc)
      = match lastSet ops k with
        | some v => some v
        | none => listFind k acc := by
  induction ops generalizing acc with
  | nil => simp [lastSet]
  | cons p rest ih =>
    simp only [List.foldl_cons, lastSet]
    rw [ih, listFind_listUpsert]
    cases hls : lastSet rest k
    · by_cases hp : p.1 = k <;> simp [hls, hp]
    · simp [hls]

end InorderLemmas

section SetFold

variable {K V : Type} [LinearOrder K]

open Tree

theorem set_root (t : AVLTree K V) (k : K) (v : V) :
    (t.set k v).root = (insRec t.noDuplicates k v t.root).1 := by
  rw [AVLTree.set]

theorem set_size (t : AVLTree K V) (k : K) (v : V) :
    (t.set k v).size
      = if (insRec t.noDuplicates k v t.root).2.2 then t.size + 1
        else t.size := by
  rw [AVLTree.set]

theorem set_noDuplicates (t : AVLTree K V) (k : K) (v : V) :
    (t.set k v).noDuplicates = t.noDuplicates := by
  rw [AVLTree.set]

/-- Folding `set` in reject-duplicates mode acts on the in-order sequence as
folding sorted upsert, and keeps the key sequence strictly sorted. -/
theorem foldl_set_inorder_noDup (ops : List (K × V)) (t : AVLTree K V)
    (hd : t.noDuplicates = true)
    (hs : (keysOf t.root).Sorted (· < ·)) :
    ((ops.foldl (fun a p => a.set p.1 p.2) t).root).inorder
      = ops.foldl (fun acc p => listUpsert p.1 p.2 acc) t.root.inorder ∧
    (keysOf ((ops.foldl (fun a p => a.set p.1 p.2) t).root)).Sorted (· < ·) ∧
    (ops.foldl (fun a p => a.set p.1 p.2) t).noDuplicates = true := by
  induction ops generalizing t with
  | nil => exact ⟨rfl, hs, hd⟩
  | cons p rest ih =>
    simp only [List.foldl_cons]
    have hroot : (t.set p.1 p.2).root = (insRec true p.1 p.2 t.root).1 := by
      rw [set_root, hd]
    have hino : ((t.set p.1 p.2).root).inorder
        = listUpsert p.1 p.2 t.root.inorder := by
      rw [hroot]; exact insRec_inorder_noDup _ _ _ hs
    have hsort : (keysOf ((t.set p.1 p.2).root)).Sorted (· < ·) := by
      unfold keysOf
      rw [hino]
      exact listUpsert_sorted hs
    obtain ⟨h1, h2, h3⟩ := ih (t.set p.1 p.2)
      (by rw [set_noDuplicates, hd]) hsort
    refine ⟨?_, h2, h3⟩
    rw [h1, hino]

end SetFold

section BalanceLemmas

set_option linter.unusedSectionVars false
set_option linter.unusedTactic false
set_option linter.unnecessarySeqFocus false

variable {K V : Type} [LinearOrder K]

open Tree

theorem bfCorrect_node {l r : Tree K V} {k : K} {v : V} {bf : Int} :
    bfCorrect (node l k v bf r) = true ↔
      bf = (l.height : Int) - r.height ∧ bfCorrect l = true ∧
        bfCorrect r = true := by
  simp [bfCorrect, and_assoc]

theorem balanceOk_node {l r : Tree K V} {k : K} {v : V} {bf : Int} :
    balanceOk (node l k v bf r) = true ↔
      (-1 ≤ bf ∧ bf ≤ 1) ∧ balanceOk l = true ∧ balanceOk r = true := by
  simp [balanceOk, and_assoc]

theorem height_node (l : Tree K V) (k : K) (v : V) (bf : Int)
    (r : Tree K V) :
    (node l k v bf r).height = 1 + max l.height r.height := rfl

theorem height_eq_zero_iff {t : Tree K V} : t.height = 0 ↔ t = nil := by
  cases t <;> simp [height]

theorem insRotate_count (t : Tree K V) : (insRotate t).count = t.count := by
  rw [count_eq_length_inorder, count_eq_length_inorder, insRotate_inorder]

/-- Rebalancing a `+2` (left-heavy) node: with truthful balance factors in
`[-1,1]` below and a left subtree exactly two taller, the rotation block of
the source restores the AVL shape.  The height of the result and its root
balance factor depend only on whether the left child was itself balanced
(`rootBF l = 0`, possible only during deletion). -/
theorem insRotate_bf2 {l r : Tree K V} {k : K} {v : V}
    (hlbf : bfCorrect l = true) (hlbal : balanceOk l = true)
    (hrbf : bfCorrect r = true) (hrbal : balanceOk r = true)
    (hh : l.height = r.height + 2) :
    bfCorrect (insRotate (node l k v 2 r)) = true ∧
    balanceOk (insRotate (node l k v 2 r)) = true ∧
    (insRotate (node l k v 2 r)).height
      = (if rootBF l = 0 then l.height + 1 else l.height) ∧
    rootBF (insRotate (node l k v 2 r)) = (if rootBF l = 0 then -1 else 0) := by
  match l with
  | .nil => simp [height] at hh
  | .node ll lk lv lbf lr =>
    rw [bfCorrect_node] at hlbf
    obtain ⟨hlbf_eq, hllbf, hlrbf⟩ := hlbf
    rw [balanceOk_node] at hlbal
    obtain ⟨hlbf_rng, hllbal, hlrbal⟩ := hlbal
    have hrot : insRotate (node (node ll lk lv lbf lr) k v 2 r)
        = (rotateRight (node
            (if rootBF (node ll lk lv lbf lr) = -1
              then (rotateLeft (node ll lk lv lbf lr)).getD
                (node ll lk lv lbf lr)
              else node ll lk lv lbf lr) k v 2 r)).getD
          (node
            (if rootBF (node ll lk lv lbf lr) = -1
              then (rotateLeft (node ll lk lv lbf lr)).getD
                (node ll lk lv lbf lr)
              else node ll lk lv lbf lr) k v 2 r) := by
      rw [insRotate, if_neg (by norm_num), if_pos (by norm_num)]
    rcases show lbf = -1 ∨ lbf = 0 ∨ lbf = 1 by omega with hc | hc | hc
    · -- double rotation: the left child is right-heavy
      subst hc
      match lr, hlrbf, hlrbal with
      | .nil, _, _ =>
        simp only [height_node, height] at hh hlbf_eq
        omega
      | .node m1 mk mv mbf m2, hlrbf, hlrbal =>
        rw [bfCorrect_node] at hlrbf
        obtain ⟨hmbf_eq, hm1bf, hm2bf⟩ := hlrbf
        rw [balanceOk_node] at hlrbal
        obtain ⟨hmbf_rng, hm1bal, hm2bal⟩ := hlrbal
        rw [hrot, if_pos (show rootBF
          (node ll lk lv (-1) (node m1 mk mv mbf m2)) = -1 from rfl)]
        clear hrot
        simp only [rotateLeft, rotateRight, Option.getD_some]
        simp only [height_node] at hh hlbf_eq
        refine ⟨?_, ?_, ?_, ?_⟩
        · rw [bfCorrect_node, bfCorrect_node, bfCorrect_node]
          refine ⟨?_, ⟨?_, hllbf, hm1bf⟩, ?_, hm2bf, hrbf⟩ <;>
          (try simp only [height_node]) <;> (try split_ifs at *) <;> omega
        · rw [balanceOk_node, balanceOk_node, balanceOk_node]
          refine ⟨?_, ⟨?_, hllbal, hm1bal⟩, ?_, hm2bal, hrbal⟩ <;>
          (try simp only [height_node]) <;> (try split_ifs at *) <;> omega
        · simp only [height_node, rootBF]
          (try split_ifs at *) <;> omega
        · simp only [rootBF, height_node]
          (try split_ifs at *) <;> omega
    · -- single right rotation with a balanced left child (deletion only)
      subst hc
      rw [hrot, if_neg (show ¬rootBF (node ll lk lv 0 lr) = -1 by
        simp [rootBF])]
      clear hrot
      simp only [rotateRight, Option.getD_some]
      simp only [height_node] at hh hlbf_eq
      refine ⟨?_, ?_, ?_, ?_⟩
      · rw [bfCorrect_node, bfCorrect_node]
        refine ⟨?_, hllbf, ?_, hlrbf, hrbf⟩ <;>
          (try simp only [height_node]) <;> (try split_ifs at *) <;> omega
      · rw [balanceOk_node, balanceOk_node]
        refine ⟨?_, hllbal, ?_, hlrbal, hrbal⟩ <;>
          (try simp only [height_node]) <;> (try split_ifs at *) <;> omega
      · simp only [height_node, rootBF]
        (try split_ifs at *) <;> omega
      · simp only [rootBF, height_node]
        (try split_ifs at *) <;> omega
    · -- single right rotation, left child left-heavy (the insertion case)
      subst hc
      rw [hrot, if_neg (show ¬rootBF (node ll lk lv 1 lr) = -1 by
        simp [rootBF])]
      clear hrot
      simp only [rotateRight, Option.getD_some]
      simp only [height_node] at hh hlbf_eq
      refine ⟨?_, ?_, ?_, ?_⟩
      · rw [bfCorrect_node, bfCorrect_node]
        refine ⟨?_, hllbf, ?_, hlrbf, hrbf⟩ <;>
          (try simp only [height_node]) <;> (try split_ifs at *) <;> omega
      · rw [balanceOk_node, balanceOk_node]
        refine ⟨?_, hllbal, ?_, hlrbal, hrbal⟩ <;>
          (try simp only [height_node]) <;> (try split_ifs at *) <;> omega
      · simp only [height_node, rootBF]
        (try split_ifs at *) <;> omega
      · simp only [rootBF, height_node]
        (try split_ifs at *) <;> omega

/-- Mirror image of `insRotate_bf2`: rebalancing a `-2` (right-heavy)
node. -/
theorem insRotate_bfm2 {l r : Tree K V} {k : K} {v : V}
    (hlbf : bfCorrect l = true) (hlbal : balanceOk l = true)
    (hrbf : bfCorrect r = true) (hrbal : balanceOk r = true)
    (hh : r.height = l.height + 2) :
    bfCorrect (insRotate (node l k v (-2) r)) = true ∧
    balanceOk (insRotate (node l k v (-2) r)) = true ∧
    (insRotate (node l k v (-2) r)).height
      = (if rootBF r = 0 then r.height + 1 else r.height) ∧
    rootBF (insRotate (node l k v (-2) r)) = (if rootBF r = 0 then 1 else 0) := by
  match r with
  | .nil => simp [height] at hh
  | .node rl rk rv rbf rr =>
    rw [bfCorrect_node] at hrbf
    obtain ⟨hrbf_eq, hrlbf, hrrbf⟩ := hrbf
    rw [balanceOk_node] at hrbal
    obtain ⟨hrbf_rng, hrlbal, hrrbal⟩ := hrbal
    have hrot : insRotate (node l k v (-2) (node rl rk rv rbf rr))
        = (rotateLeft (node l k v (-2)
            (if rootBF (node rl rk rv rbf rr) = 1
              then (rotateRight (node rl rk rv rbf rr)).getD
                (node rl rk rv rbf rr)
              else node rl rk rv rbf rr))).getD
          (node l k v (-2)
            (if rootBF (node rl rk rv rbf rr) = 1
              then (rotateRight (node rl rk rv rbf rr)).getD
                (node rl rk rv rbf rr)
              else node rl rk rv rbf rr)) := by
      rw [insRotate, if_pos (by norm_num)]
    rcases show rbf = 1 ∨ rbf = 0 ∨ rbf = -1 by omega with hc | hc | hc
    · -- double rotation: the right child is left-heavy
      subst hc
      match rl, hrlbf, hrlbal with
      | .nil, _, _ =>
        simp only [height_node, height] at hh hrbf_eq
        omega
      | .node m1 mk mv mbf m2, hrlbf, hrlbal =>
        rw [bfCorrect_node] at hrlbf
        obtain ⟨hmbf_eq, hm1bf, hm2bf⟩ := hrlbf
        rw [balanceOk_node] at hrlbal
        obtain ⟨hmbf_rng, hm1bal, hm2bal⟩ := hrlbal
        rw [hrot, if_pos (show rootBF
          (node (node m1 mk mv mbf m2) rk rv 1 rr) = 1 from rfl)]
        clear hrot
        simp only [rotateRight, rotateLeft, Option.getD_some]
        simp only [height_node] at hh hrbf_eq
        refine ⟨?_, ?_, ?_, ?_⟩
        · rw [bfCorrect_node, bfCorrect_node, bfCorrect_node]
          refine ⟨?_, ⟨?_, hlbf, hm1bf⟩, ?_, hm2bf, hrrbf⟩ <;>
          (try simp only [height_node]) <;> (try split_ifs at *) <;> omega
        · rw [balanceOk_node, balanceOk_node, balanceOk_node]
          refine ⟨?_, ⟨?_, hlbal, hm1bal⟩, ?_, hm2bal, hrrbal⟩ <;>
          (try simp only [height_node]) <;> (try split_ifs at *) <;> omega
        · simp only [height_node, rootBF]
          (try split_ifs at *) <;> omega
        · simp only [rootBF, height_node]
          (try split_ifs at *) <;> omega
    · -- single left rotation with a balanced right child (deletion only)
      subst hc
      rw [hrot, if_neg (show ¬rootBF (node rl rk rv 0 rr) = 1 by
        simp [rootBF])]
      clear hrot
      simp only [rotateLeft, Option.getD_some]
      simp only [height_node] at hh hrbf_eq
      refine ⟨?_, ?_, ?_, ?_⟩
      · rw [bfCorrect_node, bfCorrect_node]
        refine ⟨?_, ⟨?_, hlbf, hrlbf⟩, hrrbf⟩ <;>
          (try simp only [height_node]) <;> (try split_ifs at *) <;> omega
      · rw [balanceOk_node, balanceOk_node]
        refine ⟨?_, ⟨?_, hlbal, hrlbal⟩, hrrbal⟩ <;>
          (try simp only [height_node]) <;> (try split_ifs at *) <;> omega
      · simp only [height_node, rootBF]
        (try split_ifs at *) <;> omega
      · simp only [rootBF, height_node]
        (try split_ifs at *) <;> omega
    · -- single left rotation, right child right-heavy (the insertion case)
      subst hc
      rw [hrot, if_neg (show ¬rootBF (node rl rk rv (-1) rr) = 1 by
        simp [rootBF])]
      clear hrot
      simp only [rotateLeft, Option.getD_some]
      simp only [height_node] at hh hrbf_eq
      refine ⟨?_, ?_, ?_, ?_⟩
      · rw [bfCorrect_node, bfCorrect_node]
        refine ⟨?_, ⟨?_, hlbf, hrlbf⟩, hrrbf⟩ <;>
          (try simp only [height_node]) <;> (try split_ifs at *) <;> omega
      · rw [balanceOk_node, balanceOk_node]
        refine ⟨?_, ⟨?_, hlbal, hrlbal⟩, hrrbal⟩ <;>
          (try simp only [height_node]) <;> (try split_ifs at *) <;> omega
      · simp only [height_node, rootBF]
        (try split_ifs at *) <;> omega
      · simp only [rootBF, height_node]
        (try split_ifs at *) <;> omega

/-- The insertion core preserves truthful balance factors and the AVL
balance bound; the `grew` flag (the walk-still-running flag of the source)
reports exactly whether the subtree height increased, and a grown nonempty
subtree never reports balance factor `0` (which is what licenses the
rotation analysis one level up). -/
theorem insRec_balance (noDup : Bool) (key : K) (value : V) (t : Tree K V)
    (hbf : bfCorrect t = true) (hbal : balanceOk t = true) :
    bfCorrect (insRec noDup key value t).1 = true ∧
    balanceOk (insRec noDup key value t).1 = true ∧
    ((insRec noDup key value t).2.1 = true →
      (insRec noDup key value t).1.height = t.height + 1 ∧
      (t ≠ .nil → rootBF (insRec noDup key value t).1 ≠ 0)) ∧
    ((insRec noDup key value t).2.1 = false →
      (insRec noDup key value t).1.height = t.height) := by
  induction t with
  | nil =>
    refine ⟨by simp [insRec, bfCorrect, height],
      by simp [insRec, balanceOk], ?_, ?_⟩
    · intro _
      refine ⟨by simp [insRec, height], fun h => absurd rfl h⟩
    · intro hg
      simp [insRec] at hg
  | node l k v bf r ihl ihr =>
    rw [bfCorrect_node] at hbf
    obtain ⟨hbf_eq, hlbf, hrbf⟩ := hbf
    rw [balanceOk_node] at hbal
    obtain ⟨hbf_rng, hlbal, hrbal⟩ := hbal
    rw [insRec]
    by_cases h1 : noDup = true ∧ DEFAULT_COMPARE key k = 0
    · rw [if_pos h1]
      refine ⟨?_, ?_, ?_, ?_⟩
      · rw [bfCorrect_node]
        exact ⟨hbf_eq, hlbf, hrbf⟩
      · rw [balanceOk_node]
        exact ⟨hbf_rng, hlbal, hrbal⟩
      · intro hg
        simp at hg
      · intro _
        simp [height_node]
    · rw [if_neg h1]
      by_cases h2 : if noDup = true then DEFAULT_COMPARE key k < 0
          else DEFAULT_COMPARE key k ≤ 0
      · -- descend left: the inserted key is `≤` this node's key
        rw [if_pos h2]
        have hkk : ¬DEFAULT_COMPARE k key < 0 := by
          rw [DEFAULT_COMPARE_neg]
          by_cases hnd : noDup = true
          · rw [if_pos hnd] at h2
            exact not_lt_of_gt (DEFAULT_COMPARE_neg.mp h2)
          · rw [if_neg hnd] at h2
            intro hlt
            have := DEFAULT_COMPARE_pos.mpr hlt
            omega
        rcases hrec : insRec noDup key value l with ⟨l', g, ins⟩
        obtain ⟨ihl_bf, ihl_bal, ihl_grew, ihl_ng⟩ := ihl hlbf hlbal
        rw [hrec] at ihl_bf ihl_bal ihl_grew ihl_ng
        cases g
        · have hhl : l'.height = l.height := ihl_ng rfl
          refine ⟨?_, ?_, ?_, ?_⟩
          · rw [bfCorrect_node]
            exact ⟨by rw [hhl]; exact hbf_eq, ihl_bf, hrbf⟩
          · rw [balanceOk_node]
            exact ⟨hbf_rng, ihl_bal, hrbal⟩
          · intro hg
            simp at hg
          · intro _
            simp [height_node, hhl]
        · have hhl : l'.height = l.height + 1 := (ihl_grew rfl).1
          simp only [if_neg hkk]
          by_cases h3 : bf + 1 = 0
          · rw [if_pos h3]
            refine ⟨?_, ?_, ?_, ?_⟩
            · rw [bfCorrect_node]
              exact ⟨by omega, ihl_bf, hrbf⟩
            · rw [balanceOk_node]
              exact ⟨by omega, ihl_bal, hrbal⟩
            · intro hg
              simp at hg
            · intro _
              simp only [height_node]
              omega
          · rw [if_neg h3]
            by_cases h4 : bf + 1 < -1 ∨ bf + 1 > 1
            · rw [if_pos h4]
              have hbf1 : bf = 1 := by omega
              have hlne : l ≠ .nil := by
                intro hnil
                subst hnil
                rw [show (Tree.nil : Tree K V).height = 0 from rfl] at hbf_eq
                omega
              have hrootl : rootBF l' ≠ 0 :=
                (ihl_grew rfl).2 hlne
              have hh2 : l'.height = r.height + 2 := by omega
              rw [show bf + 1 = 2 from by omega]
              obtain ⟨c1, c2, c3, c4⟩ :=
                insRotate_bf2 (k := k) (v := v) ihl_bf ihl_bal hrbf hrbal hh2
              rw [if_neg hrootl] at c3
              refine ⟨c1, c2, ?_, ?_⟩
              · intro hg
                simp at hg
              · intro _
                rw [c3]
                simp only [height_node]
                omega
            · rw [if_neg h4]
              refine ⟨?_, ?_, ?_, ?_⟩
              · rw [bfCorrect_node]
                exact ⟨by omega, ihl_bf, hrbf⟩
              · rw [balanceOk_node]
                exact ⟨by omega, ihl_bal, hrbal⟩
              · intro _
                refine ⟨?_, ?_⟩
                · simp only [height_node]
                  omega
                · intro _
                  simp only [rootBF]
                  omega
              · intro hg
                simp at hg
      · -- descend right: the inserted key is `>` this node's key
        rw [if_neg h2]
        have hkk : DEFAULT_COMPARE k key < 0 := by
          rw [DEFAULT_COMPARE_neg]
          by_cases hnd : noDup = true
          · rw [if_pos hnd] at h2
            have h0 : ¬DEFAULT_COMPARE key k = 0 := fun hc => h1 ⟨hnd, hc⟩
            rw [DEFAULT_COMPARE_neg] at h2
            rw [DEFAULT_COMPARE_eq_zero] at h0
            rcases lt_trichotomy key k with hc | hc | hc
            · exact absurd hc h2
            · exact absurd hc h0
            · exact hc
          · rw [if_neg hnd] at h2
            have : 0 < DEFAULT_COMPARE key k := by omega
            exact DEFAULT_COMPARE_pos.mp this
        rcases hrec : insRec noDup key value r with ⟨r', g, ins⟩
        obtain ⟨ihr_bf, ihr_bal, ihr_grew, ihr_ng⟩ := ihr hrbf hrbal
        rw [hrec] at ihr_bf ihr_bal ihr_grew ihr_ng
        cases g
        · have hhr : r'.height = r.height := ihr_ng rfl
          refine ⟨?_, ?_, ?_, ?_⟩
          · rw [bfCorrect_node]
            exact ⟨by rw [hhr]; exact hbf_eq, hlbf, ihr_bf⟩
          · rw [balanceOk_node]
            exact ⟨hbf_rng, hlbal, ihr_bal⟩
          · intro hg
            simp at hg
          · intro _
            simp [height_node, hhr]
        · have hhr : r'.height = r.height + 1 := (ihr_grew rfl).1
          simp only [if_pos hkk]
          by_cases h3 : bf - 1 = 0
          · rw [if_pos h3]
            refine ⟨?_, ?_, ?_, ?_⟩
            · rw [bfCorrect_node]
              exact ⟨by omega, hlbf, ihr_bf⟩
            · rw [balanceOk_node]
              exact ⟨by omega, hlbal, ihr_bal⟩
            · intro hg
              simp at hg
            · intro _
              simp only [height_node]
              omega
          · rw [if_neg h3]
            by_cases h4 : bf - 1 < -1 ∨ bf - 1 > 1
            · rw [if_pos h4]
              have hbfm1 : bf = -1 := by omega
              have hrne : r ≠ .nil := by
                intro hnil
                subst hnil
                rw [show (Tree.nil : Tree K V).height = 0 from rfl] at hbf_eq
                omega
              have hrootr : rootBF r' ≠ 0 :=
                (ihr_grew rfl).2 hrne
              have hh2 : r'.height = l.height + 2 := by omega
              rw [show bf - 1 = -2 from by omega]
              obtain ⟨c1, c2, c3, c4⟩ :=
                insRotate_bfm2 (k := k) (v := v) hlbf hlbal ihr_bf ihr_bal hh2
              rw [if_neg hrootr] at c3
              refine ⟨c1, c2, ?_, ?_⟩
              · intro hg
                simp at hg
              · intro _
                rw [c3]
                simp only [height_node]
                omega
            · rw [if_neg h4]
              refine ⟨?_, ?_, ?_, ?_⟩
              · rw [bfCorrect_node]
                exact ⟨by omega, hlbf, ihr_bf⟩
              · rw [balanceOk_node]
                exact ⟨by omega, hlbal, ihr_bal⟩
              · intro _
                refine ⟨?_, ?_⟩
                · simp only [height_node]
                  omega
                · intro _
                  simp only [rootBF]
                  omega
              · intro hg
                simp at hg

/-- One deletion-walk step at a node whose LEFT child just shrank by one:
the stored balance factor (truthful for the pre-deletion heights, in
`[-1,1]`) is decremented, a rotation fires if it leaves `[-1,1]`, and the
walk continues (`.2 = true`) exactly when the subtree height shrank. -/
theorem delRebalance_fromLeft {l r : Tree K V} {k : K} {v : V} {bf : Int}
    (hlbf : bfCorrect l = true) (hlbal : balanceOk l = true)
    (hrbf : bfCorrect r = true) (hrbal : balanceOk r = true)
    (hbf : bf = (l.height : Int) + 1 - r.height)
    (hrng : -1 ≤ bf ∧ bf ≤ 1) :
    bfCorrect (delRebalance (node l k v bf r) true).1 = true ∧
    balanceOk (delRebalance (node l k v bf r) true).1 = true ∧
    (delRebalance (node l k v bf r) true).1.inorder
      = (node l k v bf r).inorder ∧
    ((delRebalance (node l k v bf r) true).2 = true →
      (delRebalance (node l k v bf r) true).1.height + 1
        = 1 + max (l.height + 1) r.height) ∧
    ((delRebalance (node l k v bf r) true).2 = false →
      (delRebalance (node l k v bf r) true).1.height
        = 1 + max (l.height + 1) r.height) := by
  have hfst : (delRebalance (node l k v bf r) true).1
      = insRotate (node l k v (bf - 1) r) := rfl
  have hsnd : (delRebalance (node l k v bf r) true).2
      = decide ¬(rootBF (insRotate (node l k v (bf - 1) r)) = -1 ∨
          rootBF (insRotate (node l k v (bf - 1) r)) = 1) := rfl
  rw [hfst, hsnd]
  rcases show bf - 1 = -2 ∨ bf - 1 = -1 ∨ bf - 1 = 0 by omega
    with hc | hc | hc
  · -- right-heavy: rotation
    rw [show bf - 1 = -2 from hc]
    have hh : r.height = l.height + 2 := by omega
    obtain ⟨c1, c2, c3, c4⟩ :=
      insRotate_bfm2 (k := k) (v := v) hlbf hlbal hrbf hrbal hh
    refine ⟨c1, c2, ?_, ?_, ?_⟩
    · rw [insRotate_inorder]
      simp [Tree.inorder]
    · intro hcont
      rw [decide_eq_true_eq] at hcont
      rw [c4] at hcont
      by_cases hr0 : rootBF r = 0
      · rw [if_pos hr0] at hcont
        simp at hcont
      · rw [if_neg hr0] at c3
        rw [c3]
        omega
    · intro hcont
      rw [decide_eq_false_iff_not, not_not] at hcont
      rw [c4] at hcont
      by_cases hr0 : rootBF r = 0
      · rw [if_pos hr0] at c3
        rw [c3]
        omega
      · rw [if_neg hr0] at hcont
        simp at hcont
  · -- balance factor settles at -1: height unchanged, walk stops
    have hnorot : insRotate (node l k v (bf - 1) r) = node l k v (bf - 1) r := by
      rw [insRotate, if_neg (by omega), if_neg (by omega)]
    rw [hnorot]
    refine ⟨?_, ?_, rfl, ?_, ?_⟩
    · rw [bfCorrect_node]
      exact ⟨by omega, hlbf, hrbf⟩
    · rw [balanceOk_node]
      exact ⟨by omega, hlbal, hrbal⟩
    · intro hcont
      rw [decide_eq_true_eq] at hcont
      simp only [rootBF] at hcont
      omega
    · intro _
      simp only [height_node]
      omega
  · -- balance factor settles at 0: height shrank, walk continues
    have hnorot : insRotate (node l k v (bf - 1) r) = node l k v (bf - 1) r := by
      rw [insRotate, if_neg (by omega), if_neg (by omega)]
    rw [hnorot]
    refine ⟨?_, ?_, rfl, ?_, ?_⟩
    · rw [bfCorrect_node]
      exact ⟨by omega, hlbf, hrbf⟩
    · rw [balanceOk_node]
      exact ⟨by omega, hlbal, hrbal⟩
    · intro _
      simp only [height_node]
      omega
    · intro hcont
      rw [decide_eq_false_iff_not, not_not] at hcont
      simp only [rootBF] at hcont
      omega

/-- Mirror: one deletion-walk step at a node whose RIGHT child just
shrank by one. -/
theorem delRebalance_fromRight {l r : Tree K V} {k : K} {v : V} {bf : Int}
    (hlbf : bfCorrect l = true) (hlbal : balanceOk l = true)
    (hrbf : bfCorrect r = true) (hrbal : balanceOk r = true)
    (hbf : bf = (l.height : Int) - (r.height + 1))
    (hrng : -1 ≤ bf ∧ bf ≤ 1) :
    bfCorrect (delRebalance (node l k v bf r) false).1 = true ∧
    balanceOk (delRebalance (node l k v bf r) false).1 = true ∧
    (delRebalance (node l k v bf r) false).1.inorder
      = (node l k v bf r).inorder ∧
    ((delRebalance (node l k v bf r) false).2 = true →
      (delRebalance (node l k v bf r) false).1.height + 1
        = 1 + max l.height (r.height + 1)) ∧
    ((delRebalance (node l k v bf r) false).2 = false →
      (delRebalance (node l k v bf r) false).1.height
        = 1 + max l.height (r.height + 1)) := by
  have hfst : (delRebalance (node l k v bf r) false).1
      = insRotate (node l k v (bf + 1) r) := rfl
  have hsnd : (delRebalance (node l k v bf r) false).2
      = decide ¬(rootBF (insRotate (node l k v (bf + 1) r)) = -1 ∨
          rootBF (insRotate (node l k v (bf + 1) r)) = 1) := rfl
  rw [hfst, hsnd]
  rcases show bf + 1 = 2 ∨ bf + 1 = 1 ∨ bf + 1 = 0 by omega
    with hc | hc | hc
  · -- left-heavy: rotation
    rw [show bf + 1 = 2 from hc]
    have hh : l.height = r.height + 2 := by omega
    obtain ⟨c1, c2, c3, c4⟩ :=
      insRotate_bf2 (k := k) (v := v) hlbf hlbal hrbf hrbal hh
    refine ⟨c1, c2, ?_, ?_, ?_⟩
    · rw [insRotate_inorder]
      simp [Tree.inorder]
    · intro hcont
      rw [decide_eq_true_eq] at hcont
      rw [c4] at hcont
      by_cases hl0 : rootBF l = 0
      · rw [if_pos hl0] at hcont
        simp at hcont
      · rw [if_neg hl0] at c3
        rw [c3]
        omega
    · intro hcont
      rw [decide_eq_false_iff_not, not_not] at hcont
      rw [c4] at hcont
      by_cases hl0 : rootBF l = 0
      · rw [if_pos hl0] at c3
        rw [c3]
        omega
      · rw [if_neg hl0] at hcont
        simp at hcont
  · -- balance factor settles at 1: height unchanged, walk stops
    have hnorot : insRotate (node l k v (bf + 1) r) = node l k v (bf + 1) r := by
      rw [insRotate, if_neg (by omega), if_neg (by omega)]
    rw [hnorot]
    refine ⟨?_, ?_, rfl, ?_, ?_⟩
    · rw [bfCorrect_node]
      exact ⟨by omega, hlbf, hrbf⟩
    · rw [balanceOk_node]
      exact ⟨by omega, hlbal, hrbal⟩
    · intro hcont
      rw [decide_eq_true_eq] at hcont
      simp only [rootBF] at hcont
      omega
    · intro _
      simp only [height_node]
      omega
  · -- balance factor settles at 0: height shrank, walk continues
    have hnorot : insRotate (node l k v (bf + 1) r) = node l k v (bf + 1) r := by
      rw [insRotate, if_neg (by omega), if_neg (by omega)]
    rw [hnorot]
    refine ⟨?_, ?_, rfl, ?_, ?_⟩
    · rw [bfCorrect_node]
      exact ⟨by omega, hlbf, hrbf⟩
    · rw [balanceOk_node]
      exact ⟨by omega, hlbal, hrbal⟩
    · intro _
      simp only [height_node]
      omega
    · intro hcont
      rw [decide_eq_false_iff_not, not_not] at hcont
      simp only [rootBF] at hcont
      omega

/-- The left-subtree copy-down cascade of `delete`: on a nonempty AVL
subtree it removes exactly the last in-order pair (exporting it upward),
preserves truthful balance factors and the balance bound, and its `sh`
flag reports exactly whether the subtree height shrank. -/
theorem cascadeMax_correct (t : Tree K V) :
    bfCorrect t = true → balanceOk t = true → t ≠ .nil →
    ∃ kv t' sh, cascadeMax t = some (kv, t', sh) ∧
      bfCorrect t' = true ∧ balanceOk t' = true ∧
      t.inorder = t'.inorder ++ [kv] ∧
      (sh = true → t'.height + 1 = t.height) ∧
      (sh = false → t'.height = t.height) := by
  induction t with
  | nil => intro _ _ h; exact absurd rfl h
  | node l k v bf r ihl ihr =>
    intro hbf hbal _
    rw [bfCorrect_node] at hbf
    obtain ⟨hbf_eq, hlbf, hrbf⟩ := hbf
    rw [balanceOk_node] at hbal
    obtain ⟨hrng, hlbal, hrbal⟩ := hbal
    cases r with
    | node rl rk rv rbf rr =>
      -- `while (max.right) max = max.right`
      obtain ⟨kv, r', sh, heq, hbf', hbal', hino, hsh, hns⟩ :=
        ihr hrbf hrbal (by simp)
      cases sh
      · refine ⟨kv, node l k v bf r', false, ?_, ?_, ?_, ?_, ?_, ?_⟩
        · rw [cascadeMax, heq]
          rfl
        · rw [bfCorrect_node]
          have hr' : r'.height = (node rl rk rv rbf rr).height := hns rfl
          exact ⟨by rw [hr']; exact hbf_eq, hlbf, hbf'⟩
        · rw [balanceOk_node]
          exact ⟨hrng, hlbal, hbal'⟩
        · simp only [Tree.inorder] at hino ⊢
          rw [hino]
          simp
        · intro hg; simp at hg
        · intro _
          have hr' : r'.height = (node rl rk rv rbf rr).height := hns rfl
          simp [height_node, hr']
      · have hr' : r'.height + 1 = (node rl rk rv rbf rr).height := hsh rfl
        obtain ⟨d1, d2, d3, d4, d5⟩ := delRebalance_fromRight (k := k) (v := v)
          hlbf hlbal hbf' hbal'
          (by rw [hbf_eq]; omega) hrng
        refine ⟨kv, (delRebalance (node l k v bf r') false).1,
          (delRebalance (node l k v bf r') false).2, ?_, d1, d2, ?_, ?_, ?_⟩
        · rw [cascadeMax, heq]
          rfl
        · rw [d3]
          simp only [Tree.inorder] at hino ⊢
          rw [hino]
          simp
        · intro hc
          rw [d4 hc]
          simp only [height_node] at hr' ⊢
          omega
        · intro hc
          rw [d5 hc]
          simp only [height_node] at hr' ⊢
          omega
    | nil =>
      cases l with
      | nil =>
        refine ⟨(k, v), .nil, true, rfl, rfl, rfl, by simp [Tree.inorder],
          ?_, ?_⟩
        · intro _; simp [height_node, Tree.height]
        · intro hc; simp at hc
      | node ll lk lv lbf lr =>
        obtain ⟨kv₂, l', sh, heq, hbf', hbal', hino, hsh, hns⟩ :=
          ihl hlbf hlbal (by simp)
        obtain ⟨k₂, v₂⟩ := kv₂
        have hlpos : (node ll lk lv lbf lr).height ≥ 1 := by
          simp [height_node]
        cases sh
        · refine ⟨(k, v), node l' k₂ v₂ bf .nil, false, ?_, ?_, ?_, ?_, ?_, ?_⟩
          · rw [cascadeMax, heq]
            rfl
          · rw [bfCorrect_node]
            have hl' : l'.height = (node ll lk lv lbf lr).height := hns rfl
            refine ⟨?_, hbf', rfl⟩
            rw [hl']
            simpa using hbf_eq
          · rw [balanceOk_node]
            exact ⟨hrng, hbal', rfl⟩
          · simp only [Tree.inorder] at hino ⊢
            rw [hino]
          · intro hg; simp at hg
          · intro _
            have hl' : l'.height = (node ll lk lv lbf lr).height := hns rfl
            simp [height_node, Tree.height, hl']
        · have hl' : l'.height + 1 = (node ll lk lv lbf lr).height := hsh rfl
          obtain ⟨d1, d2, d3, d4, d5⟩ := delRebalance_fromLeft (k := k₂)
            (v := v₂) hbf' hbal' (rfl : bfCorrect (.nil : Tree K V) = true)
            (rfl : balanceOk (.nil : Tree K V) = true)
            (by rw [hbf_eq]
                simp only [height_node, Tree.height] at hl' ⊢
                omega) hrng
          refine ⟨(k, v), (delRebalance (node l' k₂ v₂ bf .nil) true).1,
            (delRebalance (node l' k₂ v₂ bf .nil) true).2, ?_, d1, d2, ?_,
            ?_, ?_⟩
          · rw [cascadeMax, heq]
            rfl
          · rw [d3]
            simp only [Tree.inorder] at hino ⊢
            rw [hino]
          · intro hc
            rw [d4 hc]
            simp only [height_node, Tree.height] at hl' ⊢
            omega
          · intro hc
            rw [d5 hc]
            simp only [height_node, Tree.height] at hl' ⊢
            omega

/-- Mirror of `cascadeMax_correct` for the right-subtree copy-down cascade
of `delete`: on a nonempty AVL subtree it removes exactly the first in-order
pair (exporting it upward), preserves truthful balance factors and the
balance bound, and its `sh` flag reports exactly whether the subtree height
shrank. -/
theorem cascadeMin_correct (t : Tree K V) :
    bfCorrect t = true → balanceOk t = true → t ≠ .nil →
    ∃ kv t' sh, cascadeMin t = some (kv, t', sh) ∧
      bfCorrect t' = true ∧ balanceOk t' = true ∧
      t.inorder = kv :: t'.inorder ∧
      (sh = true → t'.height + 1 = t.height) ∧
      (sh = false → t'.height = t.height) := by
  induction t with
  | nil => intro _ _ h; exact absurd rfl h
  | node l k v bf r ihl ihr =>
    intro hbf hbal _
    rw [bfCorrect_node] at hbf
    obtain ⟨hbf_eq, hlbf, hrbf⟩ := hbf
    rw [balanceOk_node] at hbal
    obtain ⟨hrng, hlbal, hrbal⟩ := hbal
    cases l with
    | node ll lk lv lbf lr =>
      -- `while (min.left) min = min.left`
      obtain ⟨kv, l', sh, heq, hbf', hbal', hino, hsh, hns⟩ :=
        ihl hlbf hlbal (by simp)
      cases sh
      · refine ⟨kv, node l' k v bf r, false, ?_, ?_, ?_, ?_, ?_, ?_⟩
        · rw [cascadeMin, heq]
          rfl
        · rw [bfCorrect_node]
          have hl' : l'.height = (node ll lk lv lbf lr).height := hns rfl
          exact ⟨by rw [hl']; exact hbf_eq, hbf', hrbf⟩
        · rw [balanceOk_node]
          exact ⟨hrng, hbal', hrbal⟩
        · simp only [Tree.inorder] at hino ⊢
          rw [hino, List.cons_append]
        · intro hg; simp at hg
        · intro _
          have hl' : l'.height = (node ll lk lv lbf lr).height := hns rfl
          simp [height_node, hl']
      · have hl' : l'.height + 1 = (node ll lk lv lbf lr).height := hsh rfl
        obtain ⟨d1, d2, d3, d4, d5⟩ := delRebalance_fromLeft (k := k) (v := v)
          hbf' hbal' hrbf hrbal
          (by rw [hbf_eq]; omega) hrng
        refine ⟨kv, (delRebalance (node l' k v bf r) true).1,
          (delRebalance (node l' k v bf r) true).2, ?_, d1, d2, ?_, ?_, ?_⟩
        · rw [cascadeMin, heq]
          rfl
        · rw [d3]
          simp only [Tree.inorder] at hino ⊢
          rw [hino, List.cons_append]
        · intro hc
          rw [d4 hc]
          simp only [height_node] at hl' ⊢
          omega
        · intro hc
          rw [d5 hc]
          simp only [height_node] at hl' ⊢
          omega
    | nil =>
      cases r with
      | nil =>
        refine ⟨(k, v), .nil, true, rfl, rfl, rfl, by simp [Tree.inorder],
          ?_, ?_⟩
        · intro _; simp [height_node, Tree.height]
        · intro hc; simp at hc
      | node rl rk rv rbf rr =>
        obtain ⟨kv₂, r', sh, heq, hbf', hbal', hino, hsh, hns⟩ :=
          ihr hrbf hrbal (by simp)
        obtain ⟨k₂, v₂⟩ := kv₂
        cases sh
        · refine ⟨(k, v), node .nil k₂ v₂ bf r', false, ?_, ?_, ?_, ?_, ?_, ?_⟩
          · rw [cascadeMin, heq]
            rfl
          · rw [bfCorrect_node]
            have hr' : r'.height = (node rl rk rv rbf rr).height := hns rfl
            refine ⟨?_, rfl, hbf'⟩
            rw [hr']
            simpa using hbf_eq
          · rw [balanceOk_node]
            exact ⟨hrng, rfl, hbal'⟩
          · simp only [Tree.inorder] at hino ⊢
            rw [hino]
            simp
          · intro hg; simp at hg
          · intro _
            have hr' : r'.height = (node rl rk rv rbf rr).height := hns rfl
            simp [height_node, Tree.height, hr']
        · have hr' : r'.height + 1 = (node rl rk rv rbf rr).height := hsh rfl
          obtain ⟨d1, d2, d3, d4, d5⟩ := delRebalance_fromRight (k := k₂)
            (v := v₂) (rfl : bfCorrect (.nil : Tree K V) = true)
            (rfl : balanceOk (.nil : Tree K V) = true) hbf' hbal'
            (by rw [hbf_eq]
                simp only [height_node, Tree.height] at hr' ⊢
                omega) hrng
          refine ⟨(k, v), (delRebalance (node .nil k₂ v₂ bf r') false).1,
            (delRebalance (node .nil k₂ v₂ bf r') false).2, ?_, d1, d2, ?_,
            ?_, ?_⟩
          · rw [cascadeMin, heq]
            rfl
          · rw [d3]
            simp only [Tree.inorder] at hino ⊢
            rw [hino]
            simp
          · intro hc
            rw [d4 hc]
            simp only [height_node, Tree.height] at hr' ⊢
            omega
          · intro hc
            rw [d5 hc]
            simp only [height_node, Tree.height] at hr' ⊢
            omega

/-- The `inserted` flag of `set`'s recursive core is truthful: the node
count grows by one exactly when it reports an insertion (and is unchanged
on the in-place update of reject-duplicates mode). -/
theorem insRec_count (noDup : Bool) (key : K) (value : V) (t : Tree K V) :
    (insRec noDup key value t).1.count
      = t.count + (if (insRec noDup key value t).2.2 then 1 else 0) := by
  induction t with
  | nil => simp [insRec, Tree.count]
  | node l k v bf r ihl ihr =>
    simp only [insRec]
    by_cases h0 : noDup = true ∧ DEFAULT_COMPARE key k = 0
    · rw [if_pos h0]
      simp [Tree.count]
    · rw [if_neg h0]
      by_cases hdir : (if noDup = true then DEFAULT_COMPARE key k < 0
          else DEFAULT_COMPARE key k ≤ 0)
      · rw [if_pos hdir]
        rcases hrec : insRec noDup key value l with ⟨l', grew, ins⟩
        rw [hrec] at ihl
        cases grew
        · cases ins <;> simp [Tree.count] at ihl ⊢ <;> omega
        · cases ins <;> simp [Tree.count] at ihl ⊢ <;>
            split_ifs <;>
            simp_all [Tree.count, insRotate_count] <;> omega
      · rw [if_neg hdir]
        rcases hrec : insRec noDup key value r with ⟨r', grew, ins⟩
        rw [hrec] at ihr
        cases grew
        · cases ins <;> simp [Tree.count] at ihr ⊢ <;> omega
        · cases ins <;> simp [Tree.count] at ihr ⊢ <;>
            split_ifs <;>
            simp_all [Tree.count, insRotate_count] <;> omega

/-- `delete`'s recursive core: whenever it returns a new subtree it has
removed exactly one in-order pair, keeps balance factors truthful and
within `[-1, 1]`, and its second component reports exactly whether the
subtree height shrank. -/
theorem delNode_correct (key : K) (t : Tree K V) :
    bfCorrect t = true → balanceOk t = true →
    ∀ t' sh, delNode key t = some (t', sh) →
      bfCorrect t' = true ∧ balanceOk t' = true ∧
      (∃ pre kv post, t.inorder = pre ++ kv :: post ∧
        t'.inorder = pre ++ post) ∧
      (sh = true → t'.height + 1 = t.height) ∧
      (sh = false → t'.height = t.height) := by
  induction t with
  | nil => intro _ _ t' sh h; simp [delNode] at h
  | node l k v bf r ihl ihr =>
    intro hbf hbal t' sh hdel
    rw [bfCorrect_node] at hbf
    obtain ⟨hbf_eq, hlbf, hrbf⟩ := hbf
    rw [balanceOk_node] at hbal
    obtain ⟨hrng, hlbal, hrbal⟩ := hbal
    simp only [delNode] at hdel
    by_cases h0 : DEFAULT_COMPARE key k = 0
    · rw [if_pos h0] at hdel
      cases l with
      | node ll lk lv lbf lr =>
        obtain ⟨⟨k₂, v₂⟩, l', shl, heq, hbf', hbal', hino, hsh, hns⟩ :=
          cascadeMax_correct (.node ll lk lv lbf lr) hlbf hlbal (by simp)
        simp only [heq] at hdel
        cases shl
        · rw [if_neg Bool.false_ne_true] at hdel
          simp only [Option.some.injEq, Prod.mk.injEq] at hdel
          obtain ⟨rfl, rfl⟩ := hdel
          have hh := hns rfl
          refine ⟨?_, ?_, ?_, ?_, ?_⟩
          · rw [bfCorrect_node]
            exact ⟨by rw [hh]; exact hbf_eq, hbf', hrbf⟩
          · rw [balanceOk_node]
            exact ⟨hrng, hbal', hrbal⟩
          · refine ⟨l'.inorder ++ [(k₂, v₂)], (k, v), r.inorder, ?_, ?_⟩
            · simp only [Tree.inorder] at hino ⊢
              rw [hino]
            · simp [Tree.inorder]
          · intro hc; exact absurd hc (by simp)
          · intro _; simp [height_node, hh]
        · rw [if_pos rfl] at hdel
          simp only [Option.some.injEq] at hdel
          have hh := hsh rfl
          have ht' : t' = (delRebalance (node l' k₂ v₂ bf r) true).1 := by
            rw [hdel]
          have hs2 : sh = (delRebalance (node l' k₂ v₂ bf r) true).2 := by
            rw [hdel]
          subst ht'; subst hs2
          obtain ⟨d1, d2, d3, d4, d5⟩ := delRebalance_fromLeft hbf' hbal'
            hrbf hrbal (by rw [hbf_eq]; omega) hrng
          refine ⟨d1, d2, ?_, ?_, ?_⟩
          · refine ⟨l'.inorder ++ [(k₂, v₂)], (k, v), r.inorder, ?_, ?_⟩
            · simp only [Tree.inorder] at hino ⊢
              rw [hino]
            · rw [d3]
              simp [Tree.inorder]
          · intro hc
            rw [d4 hc]
            simp only [height_node] at hh ⊢
            omega
          · intro hc
            rw [d5 hc]
            simp only [height_node] at hh ⊢
            omega
      | nil =>
        cases r with
        | node rl rk rv rbf rr =>
          obtain ⟨⟨k₂, v₂⟩, r', shr, heq, hbf', hbal', hino, hsh, hns⟩ :=
            cascadeMin_correct (.node rl rk rv rbf rr) hrbf hrbal (by simp)
          simp only [heq] at hdel
          cases shr
          · rw [if_neg Bool.false_ne_true] at hdel
            simp only [Option.some.injEq, Prod.mk.injEq] at hdel
            obtain ⟨rfl, rfl⟩ := hdel
            have hh := hns rfl
            refine ⟨?_, ?_, ?_, ?_, ?_⟩
            · rw [bfCorrect_node]
              exact ⟨by rw [hh]; exact hbf_eq, rfl, hbf'⟩
            · rw [balanceOk_node]
              exact ⟨hrng, rfl, hbal'⟩
            · refine ⟨[], (k, v), (k₂, v₂) :: r'.inorder, ?_, ?_⟩
              · simp only [Tree.inorder] at hino ⊢
                rw [hino]
              · simp [Tree.inorder]
            · intro hc; exact absurd hc (by simp)
            · intro _; simp [height_node, Tree.height, hh]
          · rw [if_pos rfl] at hdel
            simp only [Option.some.injEq] at hdel
            have hh := hsh rfl
            have ht' : t' = (delRebalance (node .nil k₂ v₂ bf r') false).1 := by
              rw [hdel]
            have hs2 : sh = (delRebalance (node .nil k₂ v₂ bf r') false).2 := by
              rw [hdel]
            subst ht'; subst hs2
            obtain ⟨d1, d2, d3, d4, d5⟩ := delRebalance_fromRight
              (rfl : bfCorrect (.nil : Tree K V) = true)
              (rfl : balanceOk (.nil : Tree K V) = true) hbf' hbal'
              (by rw [hbf_eq]; omega) hrng
            refine ⟨d1, d2, ?_, ?_, ?_⟩
            · refine ⟨[], (k, v), (k₂, v₂) :: r'.inorder, ?_, ?_⟩
              · simp only [Tree.inorder] at hino ⊢
                rw [hino]
              · rw [d3]
                simp [Tree.inorder]
            · intro hc
              rw [d4 hc]
              simp only [height_node, Tree.height] at hh ⊢
              omega
            · intro hc
              rw [d5 hc]
              simp only [height_node, Tree.height] at hh ⊢
              omega
        | nil =>
          simp only [Option.some.injEq, Prod.mk.injEq] at hdel
          obtain ⟨rfl, rfl⟩ := hdel
          refine ⟨rfl, rfl, ⟨[], (k, v), [], by simp [Tree.inorder], rfl⟩,
            ?_, ?_⟩
          · intro _; simp [Tree.height, height_node]
          · intro hc; exact absurd hc (by simp)
    · rw [if_neg h0] at hdel
      by_cases hlt : DEFAULT_COMPARE key k < 0
      · rw [if_pos hlt] at hdel
        rcases hld : delNode key l with _ | ⟨l', shl⟩
        · rw [hld] at hdel
          simp at hdel
        · simp only [hld] at hdel
          obtain ⟨e1, e2, ⟨pre, kvd, post, hi1, hi2⟩, e4, e5⟩ :=
            ihl hlbf hlbal l' shl hld
          cases shl
          · rw [if_neg Bool.false_ne_true] at hdel
            simp only [Option.some.injEq, Prod.mk.injEq] at hdel
            obtain ⟨rfl, rfl⟩ := hdel
            have hh := e5 rfl
            refine ⟨?_, ?_, ?_, ?_, ?_⟩
            · rw [bfCorrect_node]
              exact ⟨by rw [hh]; exact hbf_eq, e1, hrbf⟩
            · rw [balanceOk_node]
              exact ⟨hrng, e2, hrbal⟩
            · refine ⟨pre, kvd, post ++ (k, v) :: r.inorder, ?_, ?_⟩
              · show l.inorder ++ (k, v) :: r.inorder = _
                rw [hi1]
                simp
              · show l'.inorder ++ (k, v) :: r.inorder = _
                rw [hi2]
                simp
            · intro hc; exact absurd hc (by simp)
            · intro _; simp [height_node, hh]
          · rw [if_pos rfl] at hdel
            simp only [Option.some.injEq] at hdel
            have hh := e4 rfl
            have ht' : t' = (delRebalance (node l' k v bf r) true).1 := by
              rw [hdel]
            have hs2 : sh = (delRebalance (node l' k v bf r) true).2 := by
              rw [hdel]
            subst ht'; subst hs2
            obtain ⟨d1, d2, d3, d4, d5⟩ := delRebalance_fromLeft e1 e2
              hrbf hrbal (by rw [hbf_eq]; omega) hrng
            refine ⟨d1, d2, ?_, ?_, ?_⟩
            · refine ⟨pre, kvd, post ++ (k, v) :: r.inorder, ?_, ?_⟩
              · show l.inorder ++ (k, v) :: r.inorder = _
                rw [hi1]
                simp
              · rw [d3]
                show l'.inorder ++ (k, v) :: r.inorder = _
                rw [hi2]
                simp
            · intro hc
              rw [d4 hc]
              simp only [height_node] at hh ⊢
              omega
            · intro hc
              rw [d5 hc]
              simp only [height_node] at hh ⊢
              omega
      · rw [if_neg hlt] at hdel
        rcases hrd : delNode key r with _ | ⟨r', shr⟩
        · rw [hrd] at hdel
          simp at hdel
        · simp only [hrd] at hdel
          obtain ⟨e1, e2, ⟨pre, kvd, post, hi1, hi2⟩, e4, e5⟩ :=
            ihr hrbf hrbal r' shr hrd
          cases shr
          · rw [if_neg Bool.false_ne_true] at hdel
            simp only [Option.some.injEq, Prod.mk.injEq] at hdel
            obtain ⟨rfl, rfl⟩ := hdel
            have hh := e5 rfl
            refine ⟨?_, ?_, ?_, ?_, ?_⟩
            · rw [bfCorrect_node]
              exact ⟨by rw [hh]; exact hbf_eq, hlbf, e1⟩
            · rw [balanceOk_node]
              exact ⟨hrng, hlbal, e2⟩
            · refine ⟨l.inorder ++ (k, v) :: pre, kvd, post, ?_, ?_⟩
              · show l.inorder ++ (k, v) :: r.inorder = _
                rw [hi1]
                simp
              · show l.inorder ++ (k, v) :: r'.inorder = _
                rw [hi2]
                simp
            · intro hc; exact absurd hc (by simp)
            · intro _; simp [height_node, hh]
          · rw [if_pos rfl] at hdel
            simp only [Option.some.injEq] at hdel
            have hh := e4 rfl
            have ht' : t' = (delRebalance (node l k v bf r') false).1 := by
              rw [hdel]
            have hs2 : sh = (delRebalance (node l k v bf r') false).2 := by
              rw [hdel]
            subst ht'; subst hs2
            obtain ⟨d1, d2, d3, d4, d5⟩ := delRebalance_fromRight hlbf hlbal
              e1 e2 (by rw [hbf_eq]; omega) hrng
            refine ⟨d1, d2, ?_, ?_, ?_⟩
            · refine ⟨l.inorder ++ (k, v) :: pre, kvd, post, ?_, ?_⟩
              · show l.inorder ++ (k, v) :: r.inorder = _
                rw [hi1]
                simp
              · rw [d3]
                show l.inorder ++ (k, v) :: r'.inorder = _
                rw [hi2]
                simp
            · intro hc
              rw [d4 hc]
              simp only [height_node] at hh ⊢
              omega
            · intro hc
              rw [d5 hc]
              simp only [height_node] at hh ⊢
              omega

end BalanceLemmas

section ClaimC4

variable {K V : Type}

/-- **C4** — For every node whose right child exists, `rotateLeft` promotes
`node.right` into `node`'s structural position (the returned subtree root),
reattaches the promoted node's former left subtree (`rl`) as `node`'s new
right subtree, and updates the two balance factors only algebraically from
their pre-rotation values by
`node.bf += 1; if (promoted.bf < 0) node.bf -= promoted.bf;
 promoted.bf += 1; if (node.bf > 0) promoted.bf += node.bf`;
`rotateRight` on a node whose left child exists is the mirror image.  The
parent-link rewiring of the source is the substitution of the returned
subtree at `node`'s former position, which is how every caller in
`index.ts` consumes the return value. -/
theorem C4_rotation_primitives (l rl rr : Tree K V) (k pk : K) (v pv : V)
    (bf pbf : Int) :
    rotateLeft (.node l k v bf (.node rl pk pv pbf rr)) =
      some (.node
        (.node l k v (bf + 1 - (if pbf < 0 then pbf else 0)) rl)
        pk pv
        (pbf + 1 +
          (if bf + 1 - (if pbf < 0 then pbf else 0) > 0 then
            bf + 1 - (if pbf < 0 then pbf else 0) else 0))
        rr) ∧
    rotateRight (.node (.node rl pk pv pbf rr) k v bf l) =
      some (.node rl pk pv
        (pbf - 1 +
          (if bf - 1 - (if pbf > 0 then pbf else 0) < 0 then
            bf - 1 - (if pbf > 0 then pbf else 0) else 0))
        (.node rr k v (bf - 1 - (if pbf > 0 then pbf else 0)) l)) := by
  constructor
  · show rotateLeft _ = _
    rw [rotateLeft]
    split_ifs <;> simp <;> omega
  · show rotateRight _ = _
    rw [rotateRight]
    split_ifs <;> simp <;> omega

end ClaimC4

section ClaimC10

variable {K V : Type} [LinearOrder K]

/-- **C10** — The query operations `has`, `get`, `min`, `max`, `minNode`,
`maxNode`, `at`, `keys`, `values`, `entries` and `isBalanced` never modify
the tree: in explicit state-passing form, each returns its input state
unchanged — the translated method bodies contain no assignment to `_root`,
`_size` or any node field, so root, size, and every node's key, value,
links and balance factor after the call are those from before the call. -/
theorem C10_queries_preserve_state (t : AVLTree K V) (key : K) (index : Nat) :
    (AVLTree.hasS t key).2 = t ∧ (AVLTree.getS t key).2 = t ∧
    (AVLTree.minS t).2 = t ∧ (AVLTree.maxS t).2 = t ∧
    (AVLTree.minNodeS t).2 = t ∧ (AVLTree.maxNodeS t).2 = t ∧
    (AVLTree.atS t index).2 = t ∧ (AVLTree.keysS t).2 = t ∧
    (AVLTree.valuesS t).2 = t ∧ (AVLTree.entriesS t).2 = t ∧
    (AVLTree.isBalancedS t).2 = t :=
  ⟨rfl, rfl, rfl, rfl, rfl, rfl, rfl, rfl, rfl, rfl, rfl⟩

end ClaimC10

section ClaimC6

variable {K V : Type} [Inhabited K] [Inhabited V]

/-- **C6** — `load` called on a non-empty tree (`size` not 0) fails with the
"invariant violation" error, and the guard fires before any mutation, so
the caller's tree object is exactly as before (no new state is produced in
this embedding: the result is `Except.error`); `load` called on an empty
tree with equal-length key and value sequences does not fail. -/
theorem C6_load_empty_precondition (t : AVLTree K V) (keys : List K)
    (values : List V) :
    (t.size ≠ 0 →
      AVLTree.load t keys values = .error "bulk-load: tree is not empty") ∧
    (t.size = 0 → keys.length = values.length →
      ∃ t', AVLTree.load t keys values = .ok t') := by
  constructor
  · intro h
    simp [AVLTree.load, h]
  · intro h _
    refine ⟨AVLTree.mk ((markBalance (loadRecursive keys values 0 keys.length)).1)
      keys.length t.noDuplicates, ?_⟩
    simp [AVLTree.load, h]

/-- Witness for `C6_load_empty_precondition` at concrete inputs. -/
theorem C6_load_empty_precondition_witness :
    (AVLTree.load ((AVLTree.empty false : AVLTree Int Int).set 1 1) [2] [7]
      = .error "bulk-load: tree is not empty") ∧
    (∃ t', AVLTree.load (AVLTree.empty false : AVLTree Int Int) [1, 2] [5, 6]
      = .ok t') :=
  ⟨(C6_load_empty_precondition _ [2] [7]).1 (by decide),
   (C6_load_empty_precondition _ [1, 2] [5, 6]).2 rfl rfl⟩

end ClaimC6

section FalsyKeyBugs

/-- **C2** — The claim states `delete(key)` returns `true` and decrements
`size` whenever a node with that key is present.  The code's guard
`if (!this._root || !key) return false` rejects every falsy key, so for the
present (number) key `0` it returns `false` and changes nothing, while a
non-falsy present key is deleted as claimed.  The spec's deletion contract
("locate by exact key match; report not-found only if absent") is clearly
the intent and the truthiness test a slip, so this is recorded as a code
bug at the failing input `delete(0)` on a tree containing key `0`. -/
theorem C2_delete_falsy_key_bug :
    AVLTree.hasT ((AVLTree.empty false : AVLTree Int Int).set 0 99) 0 = true ∧
    AVLTree.delete falsyNum ((AVLTree.empty false : AVLTree Int Int).set 0 99) 0
      = (false, (AVLTree.empty false : AVLTree Int Int).set 0 99) ∧
    (AVLTree.delete falsyNum ((AVLTree.empty false : AVLTree Int Int).set 1 99) 1).1
      = true ∧
    (AVLTree.delete falsyNum ((AVLTree.empty false : AVLTree Int Int).set 1 99) 1).2.size
      = 0 := by
  refine ⟨by decide, by decide, by decide, by decide⟩

/-- **C3** — The claim states that inserting a set of distinct keys and then
deleting each exactly once leaves the tree empty.  For the key set `{0}`
(key `0` is falsy) the delete is a no-op by the `!key` guard, so the tree
still has `size = 1` and a root afterwards; the round-trip property of the
spec is the clear intent, so this is the same code bug at failing input
keys `[0]`. -/
theorem C3_roundtrip_falsy_key_bug :
    ((AVLTree.delete falsyNum ((AVLTree.empty false : AVLTree Int Int).set 0 0) 0).2.size
      = 1) ∧
    ((AVLTree.delete falsyNum ((AVLTree.empty false : AVLTree Int Int).set 0 0) 0).2.root.isNil
      = false) := by
  refine ⟨by decide, by decide⟩

/-- **C9** — The claim states `shift()` removes and returns the minimum
entry (and `pop()` the maximum).  `shift` reads the minimum node and then
calls `this.delete(node.key)`; for the minimum key `0` the `!key` guard
makes that delete a no-op, so `shift` returns the entry but removes
nothing, contradicting `shift`'s own doc comment ("Removes (and returns)
the entry with minimum key") — a code bug at the failing input of a tree
whose minimum (or for `pop` maximum) key is `0`.  On an empty tree both
return `undefined` and leave the tree unchanged, as claimed. -/
theorem C9_shift_falsy_key_bug :
    AVLTree.shift falsyNum ((AVLTree.empty false : AVLTree Int Int).set 0 99)
      = (some (0, 99), (AVLTree.empty false : AVLTree Int Int).set 0 99) ∧
    AVLTree.pop falsyNum ((AVLTree.empty false : AVLTree Int Int).set 0 99)
      = (some (0, 99), (AVLTree.empty false : AVLTree Int Int).set 0 99) ∧
    AVLTree.shift falsyNum (AVLTree.empty false : AVLTree Int Int)
      = (none, AVLTree.empty false) ∧
    AVLTree.pop falsyNum (AVLTree.empty false : AVLTree Int Int)
      = (none, AVLTree.empty false) := by
  refine ⟨by decide, by decide, by decide, by decide⟩

end FalsyKeyBugs

section ClaimC5

variable {K V : Type} [LinearOrder K]

/-- **C5** (amended) — In reject-duplicates mode the claim holds as stated:
after any sequence of `set` operations on an initially empty tree, for
every key that was set, `has(key)` is `true` and `get(key)` returns the
value passed to the most recent `set` call for that key, and for every key
never set, `has(key)` is `false` (`lastSet ops k` is the most recent value
and is `none` exactly for keys never set).  In the default
duplicate-allowed mode `get` instead returns the first-encountered
(earliest surviving) node with that key — see the counterexample. -/
theorem C5_lookup_reject_duplicates (ops : List (K × V)) (k : K) :
    AVLTree.getT (ops.foldl (fun t p => t.set p.1 p.2)
      (AVLTree.empty true : AVLTree K V)) k = lastSet ops k ∧
    AVLTree.hasT (ops.foldl (fun t p => t.set p.1 p.2)
      (AVLTree.empty true : AVLTree K V)) k = (lastSet ops k).isSome := by
  obtain ⟨h1, h2, h3⟩ := foldl_set_inorder_noDup ops (AVLTree.empty true)
    rfl (by simp [AVLTree.empty, Tree.keysOf, Tree.inorder])
  have hget : AVLTree.getT (ops.foldl (fun t p => t.set p.1 p.2)
      (AVLTree.empty true : AVLTree K V)) k = lastSet ops k := by
    rw [AVLTree.getT, get_eq_listFind k _ h2, h1]
    have hempty : (AVLTree.empty true : AVLTree K V).root.inorder = [] := rfl
    rw [hempty, listFind_foldl_upsert]
    cases lastSet ops k <;> rfl
  refine ⟨hget, ?_⟩
  rw [AVLTree.hasT, has_eq_get]
  rw [AVLTree.getT] at hget
  rw [hget]

end ClaimC5

section LoadLemmas

set_option linter.unusedSectionVars false

variable {K V : Type} [LinearOrder K]

open Tree

/-- The stack-based iteration visits exactly the in-order sequence: with
stack `s` (never holding empty links) and current node `t`, the pairs still
to be visited are `t`'s subtree followed by, for each stacked node, that
node and then its right subtree. -/
theorem inorderLoop_eq (s : List (Tree K V)) (t : Tree K V) :
    (∀ q ∈ s, q ≠ Tree.nil) →
    inorderLoop s t = t.inorder ++ s.flatMap
      (fun q => match q with
        | Tree.nil => []
        | Tree.node _ k v _ r => (k, v) :: r.inorder) := by
  induction s, t using inorderLoop.induct with
  | case1 s l k v bf r ih =>
    intro hs
    rw [inorderLoop, ih ?_]
    · simp [inorder]
    · intro q hq
      rcases List.mem_cons.mp hq with h | h
      · subst h; simp
      · exact hs q h
  | case2 =>
    intro _
    simp [inorderLoop, inorder]
  | case3 s =>
    intro hs
    exact absurd rfl (hs _ (List.mem_cons_self _ _))
  | case4 l k v bf r s ih =>
    intro hs
    rw [inorderLoop, ih (fun q hq => hs q (List.mem_cons_of_mem _ hq))]
    simp [inorder]

/-- `entries()` produces exactly the in-order key/value sequence. -/
theorem entriesT_eq_inorder (t : AVLTree K V) :
    AVLTree.entriesT t = t.root.inorder := by
  rw [AVLTree.entriesT, inorderLoop_eq [] _ (by simp)]
  simp

/-- `markBalance` only rewrites balance factors: structure, keys and values
are untouched. -/
theorem markBalance_inorder (t : Tree K V) :
    (markBalance t).1.inorder = t.inorder := by
  induction t with
  | nil => rfl
  | node l k v bf r ihl ihr =>
    rw [markBalance]
    rcases hl : markBalance l with ⟨l', lh⟩
    rcases hr : markBalance r with ⟨r', rh⟩
    rw [hl] at ihl
    rw [hr] at ihr
    simp [inorder, ihl, ihr]

/-- `loadRecursive` lays the index range `[start, stop)` of the zipped
input out in order. -/
theorem loadRecursive_inorder [Inhabited K] [Inhabited V]
    (keys : List K) (values : List V) (hlen : values.length = keys.length) :
    ∀ n start stop, stop - start ≤ n → stop ≤ keys.length →
    (loadRecursive keys values start stop : Tree K V).inorder
      = ((keys.zip values).drop start).take (stop - start) := by
  have hzlen : (keys.zip values).length = keys.length := by
    rw [List.length_zip, hlen, min_self]
  intro n
  induction n with
  | zero =>
    intro start stop h hle
    rw [loadRecursive, dif_neg (by omega)]
    have : stop - start = 0 := by omega
    simp [inorder, this]
  | succ n ih =>
    intro start stop h hle
    by_cases hlt : start < stop
    · rw [loadRecursive, dif_pos hlt]
      have hmid1 : (stop - start) / 2 < stop - start :=
        Nat.div_lt_self (by omega) (by omega)
      obtain ⟨mid, hmid⟩ : ∃ m, m = start + (stop - start) / 2 := ⟨_, rfl⟩
      show (Tree.node
          (loadRecursive keys values start (start + (stop - start) / 2))
          (keys.getD (start + (stop - start) / 2) default)
          (values.getD (start + (stop - start) / 2) default) 0
          (loadRecursive keys values (start + (stop - start) / 2 + 1)
            stop)).inorder
        = List.take (stop - start) (List.drop start (keys.zip values))
      rw [← hmid]
      have hmlt : mid < stop := by omega
      have hmk : mid < keys.length := by omega
      have hmz : mid < (keys.zip values).length := by omega
      have hih1 : (loadRecursive keys values start mid : Tree K V).inorder
          = ((keys.zip values).drop start).take (mid - start) :=
        ih start mid (by omega) (by omega)
      have hih2 : (loadRecursive keys values (mid + 1) stop : Tree K V).inorder
          = ((keys.zip values).drop (mid + 1)).take (stop - (mid + 1)) :=
        ih (mid + 1) stop (by omega) (by omega)
      simp only [inorder, hih1, hih2]
      have hkd : keys.getD mid default = keys[mid] :=
        List.getD_eq_getElem keys default hmk
      have hvd : values.getD mid default = values[mid] :=
        List.getD_eq_getElem values default (by omega)
      have hz : (keys.zip values)[mid] = (keys[mid], values[mid]) :=
        List.getElem_zip ..
      have hsplit : ((keys.zip values).drop start).take (stop - start)
          = ((keys.zip values).drop start).take (mid - start)
            ++ (keys[mid], values[mid])
              :: ((keys.zip values).drop (mid + 1)).take (stop - (mid + 1)) := by
        have h1 : stop - start = (mid - start) + (1 + (stop - (mid + 1))) := by
          omega
        rw [h1, List.take_add]
        congr 1
        have h2 : ((keys.zip values).drop start).drop (mid - start)
            = (keys.zip values).drop mid := by
          rw [List.drop_drop]
          congr 1
          omega
        rw [h2, List.drop_eq_getElem_cons hmz, hz]
        have h3 : 1 + (stop - (mid + 1)) = (stop - (mid + 1)) + 1 := by omega
        rw [h3, List.take_succ_cons]
      rw [hsplit, hkd, hvd]
    · rw [loadRecursive, dif_neg hlt]
      have h0 : stop - start = 0 := by omega
      simp [Tree.inorder, h0]

/-- Inserting a pair whose key strictly exceeds every key of the
accumulated ascending list appends it at the end. -/
theorem listInsertB_append_all_lt {key : K} {value : V}
    (acc : List (K × V)) (hacc : ∀ p ∈ acc, p.1 < key) :
    listInsertB key value acc = acc ++ [(key, value)] := by
  induction acc with
  | nil => rfl
  | cons p rest ih =>
    obtain ⟨k₁, v₁⟩ := p
    have h₁ : k₁ < key := hacc (k₁, v₁) (by simp)
    simp only [listInsertB, if_neg (not_le_of_gt h₁), List.cons_append]
    congr 1
    exact ih (fun p hp => hacc p (by simp [hp]))

/-- Folding duplicate-allowed insertion of a strictly ascending pair list
just appends it. -/
theorem foldl_listInsertB_sorted (l : List (K × V)) :
    ∀ acc, ((acc ++ l).map Prod.fst).Sorted (· < ·) →
    l.foldl (fun a p => listInsertB p.1 p.2 a) acc = acc ++ l := by
  induction l with
  | nil => intro acc _; simp
  | cons p rest ih =>
    intro acc hs
    obtain ⟨k, v⟩ := p
    have hs' : (acc.map Prod.fst ++ k :: rest.map Prod.fst).Pairwise
        (· < ·) := by
      simpa [List.map_append] using hs
    rw [List.pairwise_append] at hs'
    have hacc : ∀ q ∈ acc, q.1 < k := fun q hq =>
      hs'.2.2 q.1 (List.mem_map_of_mem Prod.fst hq) k (by simp)
    simp only [List.foldl_cons]
    rw [listInsertB_append_all_lt acc hacc]
    have : (acc ++ [(k, v)]) ++ rest = acc ++ (k, v) :: rest := by simp
    rw [ih (acc ++ [(k, v)]) (by rw [this]; exact hs), this]

/-- In duplicate-allowed mode `insRec` always attaches a node (the in-place
update branch is reject-duplicates only). -/
theorem insRec_dup_inserted (key : K) (value : V) (t : Tree K V) :
    (insRec false key value t).2.2 = true := by
  induction t with
  | nil => rfl
  | node l k v bf r ihl ihr =>
    rw [insRec]
    rw [if_neg (by simp)]
    by_cases hc : DEFAULT_COMPARE key k ≤ 0
    · rw [if_pos (by simpa using hc)]
      rcases hrec : insRec false key value l with ⟨l', g, ins⟩
      rw [hrec] at ihl
      cases g
      · simpa using ihl
      · simp only []
        split_ifs <;> simpa using ihl
    · rw [if_neg (by simpa using hc)]
      rcases hrec : insRec false key value r with ⟨r', g, ins⟩
      rw [hrec] at ihr
      cases g
      · simpa using ihr
      · simp only []
        split_ifs <;> simpa using ihr

/-- Folding `set` in duplicate-allowed mode: the in-order sequence folds
`listInsertB`, weak sortedness of keys is kept, the mode flag is kept, and
`_size` grows by one per operation. -/
theorem foldl_set_inorder_dup (ops : List (K × V)) (t : AVLTree K V)
    (hd : t.noDuplicates = false)
    (hs : (keysOf t.root).Sorted (· ≤ ·)) :
    ((ops.foldl (fun a p => a.set p.1 p.2) t).root).inorder
      = ops.foldl (fun acc p => listInsertB p.1 p.2 acc) t.root.inorder ∧
    (keysOf ((ops.foldl (fun a p => a.set p.1 p.2) t).root)).Sorted (· ≤ ·) ∧
    (ops.foldl (fun a p => a.set p.1 p.2) t).noDuplicates = false ∧
    (ops.foldl (fun a p => a.set p.1 p.2) t).size = t.size + ops.length := by
  induction ops generalizing t with
  | nil => exact ⟨rfl, hs, hd, rfl⟩
  | cons p rest ih =>
    simp only [List.foldl_cons]
    have hroot : (t.set p.1 p.2).root = (insRec false p.1 p.2 t.root).1 := by
      rw [set_root, hd]
    have hino : ((t.set p.1 p.2).root).inorder
        = listInsertB p.1 p.2 t.root.inorder := by
      rw [hroot]; exact insRec_inorder_dup _ _ _ hs
    have hsort : (keysOf ((t.set p.1 p.2).root)).Sorted (· ≤ ·) := by
      unfold keysOf
      rw [hino]
      exact listInsertB_sorted hs
    have hsz : (t.set p.1 p.2).size = t.size + 1 := by
      rw [set_size, hd, insRec_dup_inserted, if_pos rfl]
    obtain ⟨h1, h2, h3, h4⟩ := ih (t.set p.1 p.2)
      (by rw [set_noDuplicates, hd]) hsort
    refine ⟨?_, h2, h3, ?_⟩
    · rw [h1, hino]
    · rw [h4, hsz]
      simp
      omega

end LoadLemmas

section ClaimC7

variable {K V : Type} [LinearOrder K] [Inhabited K] [Inhabited V]

/-- **C7** — For every duplicate-free key sequence sorted by the comparator
and equal-length value sequence, loading them into an empty tree via `load`
and inserting the same pairs one at a time via `set` into another empty
tree yield trees whose in-order traversals (`entries()`) produce the same
ordered key/value sequence — namely the zipped input itself — and both
trees have the same size. -/
theorem C7_load_equals_incremental_set (keys : List K) (values : List V)
    (hsort : keys.Sorted (· < ·)) (hlen : values.length = keys.length) :
    ∃ tL, AVLTree.load (AVLTree.empty false : AVLTree K V) keys values
        = .ok tL ∧
      AVLTree.entriesT tL
        = AVLTree.entriesT ((keys.zip values).foldl
            (fun t p => t.set p.1 p.2) (AVLTree.empty false)) ∧
      tL.size = ((keys.zip values).foldl
            (fun t p => t.set p.1 p.2) (AVLTree.empty false)).size := by
  have hzlen : (keys.zip values).length = keys.length := by
    rw [List.length_zip, hlen, min_self]
  refine ⟨AVLTree.mk
    ((markBalance (loadRecursive keys values 0 keys.length)).1)
    keys.length false, ?_, ?_, ?_⟩
  · simp [AVLTree.load, AVLTree.empty]
  · rw [entriesT_eq_inorder, entriesT_eq_inorder]
    show (markBalance (loadRecursive keys values 0 keys.length)).1.inorder = _
    rw [markBalance_inorder,
      loadRecursive_inorder keys values hlen keys.length 0 keys.length
        (by omega) le_rfl]
    obtain ⟨h1, _, _, _⟩ := foldl_set_inorder_dup (keys.zip values)
      (AVLTree.empty false) rfl (by simp [AVLTree.empty, Tree.keysOf,
        Tree.inorder])
    rw [show (AVLTree.empty false : AVLTree K V).root.inorder
      = ([] : List (K × V)) from rfl] at h1
    rw [h1]
    have hzmap : ((keys.zip values).map Prod.fst) = keys :=
      List.map_fst_zip keys values (by omega)
    rw [foldl_listInsertB_sorted (keys.zip values) [] (by
      simpa [hzmap] using hsort)]
    simp [hzlen]
  · obtain ⟨_, _, _, h4⟩ := foldl_set_inorder_dup (keys.zip values)
      (AVLTree.empty false) rfl (by simp [AVLTree.empty, Tree.keysOf,
        Tree.inorder])
    rw [h4]
    simp [AVLTree.empty, hzlen]

/-- Witness for `C7_load_equals_incremental_set` at a concrete sorted
duplicate-free input. -/
theorem C7_load_equals_incremental_set_witness :
    ∃ tL, AVLTree.load (AVLTree.empty false : AVLTree Int Int)
        [1, 2, 3] [10, 20, 30] = .ok tL ∧
      AVLTree.entriesT tL
        = AVLTree.entriesT (([(1, 10), (2, 20), (3, 30)] :
            List (Int × Int)).foldl
            (fun t p => t.set p.1 p.2) (AVLTree.empty false)) ∧
      tL.size = (([(1, 10), (2, 20), (3, 30)] : List (Int × Int)).foldl
            (fun t p => t.set p.1 p.2) (AVLTree.empty false)).size :=
  C7_load_equals_incremental_set [1, 2, 3] [10, 20, 30]
    (by decide) (by decide)

end ClaimC7

section ClaimC8

variable {K V : Type} [LinearOrder K]

open Tree

/-- The Bool `weakBST` invariant is exactly weak sortedness of the in-order
key sequence. -/
theorem weakBST_iff_sorted (t : Tree K V) :
    weakBST t = true ↔ (keysOf t).Sorted (· ≤ ·) := by
  induction t with
  | nil => simp [weakBST, keysOf, inorder]
  | node l k v bf r ihl ihr =>
    rw [weakBST]
    constructor
    · intro h
      simp only [Bool.and_eq_true, List.all_eq_true] at h
      obtain ⟨⟨⟨hl, hr⟩, hwl⟩, hwr⟩ := h
      rw [keysOf_node]
      have hsl : (keysOf l).Sorted (· ≤ ·) := ihl.mp hwl
      have hsr : (keysOf r).Sorted (· ≤ ·) := ihr.mp hwr
      show (keysOf l ++ k :: keysOf r).Pairwise (· ≤ ·)
      rw [List.pairwise_append]
      refine ⟨hsl, ?_, ?_⟩
      · rw [List.pairwise_cons]
        exact ⟨fun b hb => by simpa using hr b hb, hsr⟩
      · intro a ha b hb
        have hak : a ≤ k := by simpa using hl a ha
        rcases List.mem_cons.mp hb with hb | hb
        · exact hb ▸ hak
        · exact hak.trans (by simpa using hr b hb)
    · intro h
      obtain ⟨hsl, hsr, hlk, hkr⟩ := sorted_node_weak h
      simp only [Bool.and_eq_true, List.all_eq_true]
      exact ⟨⟨⟨fun x hx => by simpa using hlk x hx,
        fun y hy => by simpa using hkr y hy⟩, ihl.mpr hsl⟩, ihr.mpr hsr⟩

/-- The `range` loop replays `rangeProc` on the remaining in-order
sequence. -/
theorem rangeLoop_eq (low high : K) (f : K → V → Bool)
    (s : List (Tree K V)) (t : Tree K V) :
    (∀ q ∈ s, q ≠ Tree.nil) →
    rangeLoop low high f s t = rangeProc low high f (t.inorder ++ s.flatMap
      (fun q => match q with
        | Tree.nil => []
        | Tree.node _ k v _ r => (k, v) :: r.inorder)) := by
  induction s, t using rangeLoop.induct low high f with
  | case1 s l k v bf r ih =>
    intro hs
    rw [rangeLoop, ih ?_]
    · simp [inorder]
    · intro q hq
      rcases List.mem_cons.mp hq with h | h
      · subst h; simp
      · exact hs q h
  | case2 =>
    intro _
    simp [rangeLoop, inorder, rangeProc]
  | case3 s =>
    intro hs
    exact absurd rfl (hs _ (List.mem_cons_self _ _))
  | case4 l k v bf r s h =>
    intro _
    rw [rangeLoop, if_pos h]
    simp only [inorder, List.nil_append, List.flatMap_cons, List.cons_append]
    rw [rangeProc, if_pos h]
  | case5 l k v bf r s h1 h2 h3 =>
    intro _
    rw [rangeLoop, if_neg h1, if_pos h2, if_pos h3]
    simp only [inorder, List.nil_append, List.flatMap_cons, List.cons_append]
    rw [rangeProc, if_neg h1, if_pos h2, if_pos h3]
  | case6 l k v bf r s h1 h2 h3 ih =>
    intro hs
    rw [rangeLoop, if_neg h1, if_pos h2, if_neg h3,
      ih (fun q hq => hs q (List.mem_cons_of_mem _ hq))]
    simp only [inorder, List.nil_append, List.flatMap_cons, List.cons_append]
    rw [rangeProc, if_neg h1, if_pos h2, if_neg h3]
  | case7 l k v bf r s h1 h2 ih =>
    intro hs
    rw [rangeLoop, if_neg h1, if_neg h2,
      ih (fun q hq => hs q (List.mem_cons_of_mem _ hq))]
    simp only [inorder, List.nil_append, List.flatMap_cons, List.cons_append]
    rw [rangeProc, if_neg h1, if_neg h2]

/-- Keys entirely above `high` contribute nothing to `rangeSpec`. -/
theorem rangeSpec_all_high (low high : K) (f : K → V → Bool)
    (l : List (K × V)) (h : ∀ p ∈ l, high < p.1) :
    rangeSpec low high f l = [] := by
  induction l with
  | nil => rfl
  | cons p rest ih =>
    obtain ⟨k, v⟩ := p
    have hk : high < k := h (k, v) (by simp)
    rw [rangeSpec, if_neg (fun hc => absurd hk (not_lt_of_ge hc.2))]
    exact ih (fun p hp => h p (by simp [hp]))

/-- On a weakly ascending sequence the break-at-`high` walk of the loop
computes exactly the inclusive-bounds filter with early stop. -/
theorem rangeProc_eq_rangeSpec (low high : K) (f : K → V → Bool)
    (l : List (K × V)) (hs : (l.map Prod.fst).Sorted (· ≤ ·)) :
    rangeProc low high f l = rangeSpec low high f l := by
  induction l with
  | nil => rfl
  | cons p rest ih =>
    obtain ⟨k, v⟩ := p
    simp only [List.map_cons, List.sorted_cons] at hs
    by_cases h1 : high < k
    · rw [rangeProc, if_pos (DEFAULT_COMPARE_pos.mpr h1), rangeSpec,
        if_neg (fun hc => absurd h1 (not_lt_of_ge hc.2))]
      exact (rangeSpec_all_high low high f rest
        (fun p hp => lt_of_lt_of_le h1
          (hs.1 p.1 (List.mem_map_of_mem Prod.fst hp)))).symm
    · have hc1 : ¬DEFAULT_COMPARE k high > 0 := by
        rw [gt_iff_lt, DEFAULT_COMPARE_pos]; exact h1
      by_cases h2 : low ≤ k
      · have hc2 : DEFAULT_COMPARE k low ≥ 0 := by
          rw [ge_iff_le, ← not_lt, DEFAULT_COMPARE_neg]
          exact not_lt.mpr h2
        rw [rangeProc, if_neg hc1, if_pos hc2, rangeSpec,
          if_pos (show low ≤ k ∧ k ≤ high from ⟨h2, not_lt.mp h1⟩)]
        by_cases hf : f k v <;> simp [hf, ih hs.2]
      · have hc2 : ¬DEFAULT_COMPARE k low ≥ 0 := by
          rw [ge_iff_le, ← not_lt, DEFAULT_COMPARE_neg, not_not]
          exact lt_of_not_le h2
        rw [rangeProc, if_neg hc1, if_neg hc2, rangeSpec,
          if_neg (fun hc => h2 hc.1), ih hs.2]

/-- **C8** — On every tree whose in-order keys are (weakly) ascending — in
particular any tree satisfying the data-model invariants —
`range(low, high, visitor)` invokes the visitor exactly on the nodes whose
keys `k` satisfy `low ≤ k ∧ k ≤ high` (both bounds inclusive), visits them
in ascending (in-order) key order, and stops — that invocation included —
as soon as the visitor returns a truthy value: the invocation sequence is
`rangeSpec` applied to the in-order sequence. -/
theorem C8_range_inclusive_ascending_early_stop (t : AVLTree K V)
    (low high : K) (f : K → V → Bool) (hs : weakBST t.root = true) :
    AVLTree.rangeT t low high f = rangeSpec low high f t.root.inorder := by
  rw [AVLTree.rangeT, rangeLoop_eq low high f [] t.root (by simp)]
  simp only [List.flatMap_nil, List.append_nil]
  exact rangeProc_eq_rangeSpec low high f _ ((weakBST_iff_sorted t.root).mp hs)

/-- Witness for `C8_range_inclusive_ascending_early_stop`: the spec's own
scenario — insert `{5,1,9,3,7}`, walk `range(3,7)` — visits `3, 5, 7` in
order; with a visitor that answers truthy at key `5` the walk stops
there. -/
theorem C8_range_witness :
    AVLTree.rangeT (([5, 1, 9, 3, 7] : List Int).foldl
        (fun t k => t.set k (2 * k)) (AVLTree.empty false)) 3 7
        (fun _ _ => false)
      = [(3, 6), (5, 10), (7, 14)] ∧
    AVLTree.rangeT (([5, 1, 9, 3, 7] : List Int).foldl
        (fun t k => t.set k (2 * k)) (AVLTree.empty false)) 3 7
        (fun k _ => k == 5)
      = [(3, 6), (5, 10)] :=
  ⟨(C8_range_inclusive_ascending_early_stop _ 3 7 _ (by decide)).trans
      (by decide),
   (C8_range_inclusive_ascending_early_stop _ 3 7 _ (by decide)).trans
      (by decide)⟩

end ClaimC8

section ClaimC1

variable {K V : Type} [LinearOrder K]

open Tree

/-- One mutating public operation (`set` or `delete`) preserves the
invariant pack: truthful balance factors, balance factors in `[-1, 1]`,
truthful `_size`, a constant `noDuplicates` flag, and the mode-dependent
sorted in-order key sequence (strict in reject-duplicates mode, weak in
duplicate-allowed mode). -/
theorem applyOp_preserves_invariants (falsy : K → Bool) (op : Op K V)
    (t : AVLTree K V)
    (h1 : bfCorrect t.root = true) (h2 : balanceOk t.root = true)
    (h3 : t.size = t.root.count)
    (h4 : t.noDuplicates = true → (keysOf t.root).Sorted (· < ·))
    (h5 : t.noDuplicates = false → (keysOf t.root).Sorted (· ≤ ·)) :
    bfCorrect (applyOp falsy t op).root = true ∧
    balanceOk (applyOp falsy t op).root = true ∧
    (applyOp falsy t op).size = (applyOp falsy t op).root.count ∧
    (applyOp falsy t op).noDuplicates = t.noDuplicates ∧
    ((applyOp falsy t op).noDuplicates = true →
      (keysOf (applyOp falsy t op).root).Sorted (· < ·)) ∧
    ((applyOp falsy t op).noDuplicates = false →
      (keysOf (applyOp falsy t op).root).Sorted (· ≤ ·)) := by
  cases op with
  | set k v =>
    obtain ⟨b1, b2, _, _⟩ := insRec_balance t.noDuplicates k v t.root h1 h2
    have hc := insRec_count t.noDuplicates k v t.root
    refine ⟨?_, ?_, ?_, set_noDuplicates t k v, ?_, ?_⟩
    · show bfCorrect (t.set k v).root = true
      rw [set_root]; exact b1
    · show balanceOk (t.set k v).root = true
      rw [set_root]; exact b2
    · show (t.set k v).size = (t.set k v).root.count
      rw [set_root, set_size, hc]
      split_ifs <;> omega
    · intro hd
      rw [show (applyOp falsy t (Op.set k v)).noDuplicates
          = t.noDuplicates from set_noDuplicates t k v] at hd
      show (keysOf (t.set k v).root).Sorted (· < ·)
      rw [set_root, hd]
      have hio := insRec_inorder_noDup k v t.root (h4 hd)
      rw [Tree.keysOf, hio]
      exact listUpsert_sorted (by rw [Tree.keysOf] at h4; exact h4 hd)
    · intro hd
      rw [show (applyOp falsy t (Op.set k v)).noDuplicates
          = t.noDuplicates from set_noDuplicates t k v] at hd
      show (keysOf (t.set k v).root).Sorted (· ≤ ·)
      rw [set_root, hd]
      have hio := insRec_inorder_dup k v t.root (h5 hd)
      rw [Tree.keysOf, hio]
      exact listInsertB_sorted (by rw [Tree.keysOf] at h5; exact h5 hd)
  | del k =>
    have hop : applyOp falsy t (Op.del k) = (AVLTree.delete falsy t k).2 := rfl
    rw [hop, AVLTree.delete]
    by_cases hg : t.root.isNil = true ∨ falsy k = true
    · rw [if_pos hg]
      exact ⟨h1, h2, h3, rfl, h4, h5⟩
    · rw [if_neg hg]
      rcases hd : delNode k t.root with _ | ⟨root', sh⟩
      · exact ⟨h1, h2, h3, rfl, h4, h5⟩
      · obtain ⟨d1, d2, ⟨pre, kvd, post, hi1, hi2⟩, _⟩ :=
          delNode_correct k t.root h1 h2 root' sh hd
        have hlen1 : t.root.count = pre.length + post.length + 1 := by
          rw [count_eq_length_inorder, hi1]; simp; omega
        have hlen2 : root'.count = pre.length + post.length := by
          rw [count_eq_length_inorder, hi2]; simp
        have hsub : List.Sublist (keysOf root') (keysOf t.root) := by
          rw [Tree.keysOf, Tree.keysOf, hi1, hi2]
          exact ((List.Sublist.refl pre).append
            (List.sublist_cons_self kvd post)).map Prod.fst
        refine ⟨d1, d2, ?_, rfl, ?_, ?_⟩
        · show t.size - 1 = root'.count
          omega
        · intro hnd
          exact List.Pairwise.sublist hsub (h4 hnd)
        · intro hnd
          exact List.Pairwise.sublist hsub (h5 hnd)

/-- The invariant pack is preserved along any fold of public mutating
operations over an arbitrary starting state. -/
theorem applyOps_foldl_invariants (falsy : K → Bool) (ops : List (Op K V)) :
    ∀ t : AVLTree K V,
      bfCorrect t.root = true → balanceOk t.root = true →
      t.size = t.root.count →
      (t.noDuplicates = true → (keysOf t.root).Sorted (· < ·)) →
      (t.noDuplicates = false → (keysOf t.root).Sorted (· ≤ ·)) →
      bfCorrect (ops.foldl (applyOp falsy) t).root = true ∧
      balanceOk (ops.foldl (applyOp falsy) t).root = true ∧
      (ops.foldl (applyOp falsy) t).size
        = (ops.foldl (applyOp falsy) t).root.count ∧
      ((ops.foldl (applyOp falsy) t).noDuplicates = true →
        (keysOf (ops.foldl (applyOp falsy) t).root).Sorted (· < ·)) ∧
      ((ops.foldl (applyOp falsy) t).noDuplicates = false →
        (keysOf (ops.foldl (applyOp falsy) t).root).Sorted (· ≤ ·)) := by
  induction ops with
  | nil =>
    intro t h1 h2 h3 h4 h5
    exact ⟨h1, h2, h3, h4, h5⟩
  | cons op rest ih =>
    intro t h1 h2 h3 h4 h5
    obtain ⟨p1, p2, p3, p4, p5, p6⟩ :=
      applyOp_preserves_invariants falsy op t h1 h2 h3 h4 h5
    rw [List.foldl_cons]
    exact ih (applyOp falsy t op) p1 p2 p3 p5 p6

/-- **C1** (amended) — Starting from a freshly constructed tree (in either
duplicates mode) and applying any sequence of public mutating operations
(`set`, `delete`), the data-model invariants hold: every node's
`balanceFactor` equals `height(left) − height(right)`, all balance factors
lie in `[-1, 1]`, `_size` equals the number of nodes reachable from
`_root`, and the BST order invariant holds in its weakened form — keys in a
left subtree are `≤` the node's key and keys in a right subtree are `≥` it
(the spec's strict form, with right-subtree keys strictly greater, fails in
duplicate-allowed mode; in reject-duplicates mode the key sequence is in
fact strictly increasing, which implies the strict form). -/
theorem C1_invariants_preserved (falsy : K → Bool) (noDup : Bool)
    (ops : List (Op K V)) :
    invariants (applyOps falsy noDup ops) = true := by
  obtain ⟨p1, p2, p3, p4, p5⟩ :=
    applyOps_foldl_invariants falsy ops (AVLTree.empty noDup)
      rfl rfl rfl
      (fun _ => by simp [AVLTree.empty, Tree.keysOf, Tree.inorder])
      (fun _ => by simp [AVLTree.empty, Tree.keysOf, Tree.inorder])
  rw [invariants, applyOps]
  have hweak : weakBST (ops.foldl (applyOp falsy)
      (AVLTree.empty noDup)).root = true := by
    rw [weakBST_iff_sorted]
    cases hnd : (ops.foldl (applyOp falsy) (AVLTree.empty noDup)).noDuplicates
    · exact p5 hnd
    · exact (p4 hnd).imp (fun h => le_of_lt h)
  rw [hweak, p1, p2]
  simp [p3]

end ClaimC1

section Counterexamples

/-- **C1** (counterexample) — The claim asserts that after every operation
of any `set`/`delete` sequence from an empty tree, every node satisfies the
BST order invariant as the spec states it (left subtree `≤`, right subtree
strictly `>`).  In the default duplicate-allowed mode the sequence
`set(5,10); set(5,20); set(5,30)` triggers a right rotation that moves a
duplicate of the root's key into its right subtree, violating the strict
right-subtree clause. -/
theorem C1_counterexample_strict_bst :
    specBST false
      ((((AVLTree.empty false : AVLTree Int Int).set 5 10).set 5 20).set 5 30).root
      = false := by decide

/-- **C5** (counterexample) — The claim asserts `get(key)` returns the value
of the most recent `set` for that key.  In the default duplicate-allowed
mode, `set(5,10); set(5,20)` stores a second node for key `5` below (to the
left of) the first, and `get(5)` stops at the first comparator match — the
node holding the older value `10`, not the most recent `20`. -/
theorem C5_counterexample_duplicate_get :
    AVLTree.getT (((AVLTree.empty false : AVLTree Int Int).set 5 10).set 5 20) 5
      = some 10 ∧
    AVLTree.getT (((AVLTree.empty false : AVLTree Int Int).set 5 10).set 5 20) 5
      ≠ some 20 := by
  refine ⟨by decide, by decide⟩

end Counterexamples

end Avl
